import Mathlib

/-!
Shallow embedding of the btrfs-progs checksum-tree maintenance engine
(functions `btrfs_lookup_csum`, `btrfs_csum_file_block`, `truncate_one_csum`
and `btrfs_del_csums` of kernel-shared/file-item.c).

The checksum tree is modelled the way the specification describes the
byte-range index: an ordered list of checksum items sorted by key offset.
Every checksum item carries objectid BTRFS_EXTENT_CSUM_OBJECTID and type
BTRFS_EXTENT_CSUM_KEY, so within the checksum namespace a key is just the
byte offset; a tree here holds only checksum items, hence the
objectid/type-mismatch branches of the C code correspond to running off
either end of the list.  The generic tree primitives (btrfs_search_slot,
btrfs_insert_empty_item, btrfs_extend_item, btrfs_truncate_item,
btrfs_split_item, btrfs_del_item) are the external collaborators of the
spec; they are embedded as their effect on the sorted item list.  Item
bodies are kept at digest granularity: a body of k digests stands for an
item of k * csum_size bytes, and the digest value stored for a sector
stands for the output of btrfs_csum_data on that sector's data.
Unsigned 64-bit arithmetic is modelled on Nat; every subtraction the code
performs is guarded to be non-negative on the paths reachable here, and
the (u64)-1 sentinel for "no next item offset" is an Option.
-/

namespace BtrfsCsum

/-- Geometry parameters of a filesystem: sector size, checksum size and the
node-capacity data entering the MAX_CSUM_ITEMS macro. -/
structure Params where
  sectorsize : Nat
  csumSize : Nat
  leafDataSize : Nat
  itemHdrSize : Nat
deriving Repr, DecidableEq

/-- The MAX_CSUM_ITEMS(r, size) macro of file-item.c:
(((BTRFS_LEAF_DATA_SIZE(fs_info) - sizeof(struct btrfs_item) * 2) / size) - 1). -/
def MAX_CSUM_ITEMS (p : Params) : Nat :=
  (p.leafDataSize - 2 * p.itemHdrSize) / p.csumSize - 1

/-- One checksum item: key offset plus the packed digest array (one digest
per sector, digest n covering the sector at offset + n * sectorsize). -/
structure CsumItem where
  offset : Nat
  sums : List Nat
deriving Repr, DecidableEq

/-- The checksum tree: items in key order. -/
abbrev Tree := List CsumItem

/-- First byte past the range an item covers:
offset + (item_size / csum_size) * sectorsize. -/
def itemEnd (p : Params) (it : CsumItem) : Nat :=
  it.offset + it.sums.length * p.sectorsize

/-- Insertion point of a key: index of the first item whose offset is at or
past the searched offset.  This is where btrfs_search_slot leaves
path->slots[0] when the key is absent (ret > 0). -/
def insPoint (t : Tree) (off : Nat) : Nat :=
  match t with
  | [] => 0
  | it :: rest => if off ≤ it.offset then 0 else insPoint rest off + 1

/-- btrfs_search_slot on the flat model: whether the key was found exactly,
and the slot (the exact slot, or the insertion point). -/
def searchSlot (t : Tree) (off : Nat) : Bool × Nat :=
  (match t[insPoint t off]? with
   | some it => it.offset == off
   | none => false,
   insPoint t off)

/-- The at-or-before position every csum-tree walk derives from
btrfs_search_slot: the exact slot on a hit, the previous slot otherwise,
and nothing when the insertion point is slot 0 (no item at or before the
key). -/
def foundSlot (t : Tree) (off : Nat) : Option Nat :=
  if (searchSlot t off).1 then some (searchSlot t off).2
  else if (searchSlot t off).2 = 0 then none
  else some ((searchSlot t off).2 - 1)

/-- Error results of btrfs_lookup_csum: -ENOENT (no item at or before the
key, or neighbour of the wrong objectid/type) and -EFBIG (the item found
ends before the searched sector). -/
inductive LookupErr where
  | enoent
  | efbig
deriving Repr, DecidableEq

/-- btrfs_lookup_csum: search at-or-before `bytenr`; on an exact hit return
the digest at in-item offset 0; otherwise step back one slot, compute
csum_offset = (bytenr - found_key.offset) / sectorsize, fail with -EFBIG
when the item holds no slot for it, and return the digest there otherwise. -/
def btrfs_lookup_csum (p : Params) (t : Tree) (bytenr : Nat) : Except LookupErr Nat :=
  if (searchSlot t bytenr).1 then
    match t[(searchSlot t bytenr).2]? with
    | some it => .ok (it.sums.getD 0 0)
    | none => .error .enoent
  else if (searchSlot t bytenr).2 = 0 then
    .error .enoent
  else
    match t[(searchSlot t bytenr).2 - 1]? with
    | some it =>
      if it.sums.length ≤ (bytenr - it.offset) / p.sectorsize then .error .efbig
      else .ok (it.sums.getD ((bytenr - it.offset) / p.sectorsize) 0)
    | none => .error .enoent

/-- The ins_size computation of btrfs_csum_file_block's insert path:
when a following key was seen, csum_size * clamp(min(logical + sectorsize,
next_offset) - logical, scaled to sectors, into [1, MAX_CSUM_ITEMS]);
otherwise exactly csum_size.  `none` for nextOffset models the (u64)-1
sentinel, which the min against logical + sectorsize absorbs. -/
def insertSize (p : Params) (logical : Nat) (foundNext : Bool) (nextOffset : Option Nat) : Nat :=
  if foundNext then
    let nxt := nextOffset.getD (logical + p.sectorsize)
    let tmp := (min (logical + p.sectorsize) nxt - logical) / p.sectorsize
    p.csumSize * min (max 1 tmp) (MAX_CSUM_ITEMS p)
  else
    p.csumSize

/-- The pre-sizing rule as the specification words it, for comparison with
`insertSize`: when a following item with known key offset exists, size the
new item to cover min(MAX_CSUM_ITEMS, sectors from range start until the
next item starts) sectors; otherwise exactly one sector. -/
def insertSizeSpec (p : Params) (logical : Nat) (foundNext : Bool)
    (nextOffset : Option Nat) : Nat :=
  if foundNext then
    match nextOffset with
    | some nxt => p.csumSize * min (MAX_CSUM_ITEMS p) ((nxt - logical) / p.sectorsize)
    | none => p.csumSize
  else
    p.csumSize

/-- The `insert:` tail of btrfs_csum_file_block: btrfs_insert_empty_item of
a fresh item of ins_size bytes at the key's sorted position, followed by the
digest write at csum_offset 0.  Fresh bytes are modelled as zeros. -/
def insertNewCsum (p : Params) (t : Tree) (logical digest : Nat)
    (foundNext : Bool) (nextOffset : Option Nat) : Tree :=
  let k := insertSize p logical foundNext nextOffset / p.csumSize
  t.take (insPoint t logical) ++ ⟨logical, (List.replicate k 0).set 0 digest⟩ :: t.drop (insPoint t logical)

/-- btrfs_csum_file_block: write the digest of the sector at `logical`.
Overwrite in place when an item already covers the sector; extend the
preceding item by one digest when the sector is its next sequential slot,
it is below MAX_CSUM_ITEMS and the size delta is exactly csum_size; insert
a brand-new item otherwise.  In the not-found branch the C code looks at
slot path->slots[0] + 1 (after btrfs_next_leaf when at the leaf edge) for
the following key, which on the flat model is index 1 with `none` when the
tree holds at most one item. -/
def btrfs_csum_file_block (p : Params) (t : Tree) (logical digest : Nat) : Tree :=
  if (searchSlot t logical).1 then
    match t[(searchSlot t logical).2]? with
    | some it => t.set (searchSlot t logical).2 ⟨it.offset, it.sums.set 0 digest⟩
    | none => t
  else if (searchSlot t logical).2 = 0 then
    insertNewCsum p t logical digest true ((t[1]?).map CsumItem.offset)
  else
    match t[(searchSlot t logical).2 - 1]? with
    | some prev =>
      if (logical - prev.offset) / p.sectorsize < prev.sums.length then
        t.set ((searchSlot t logical).2 - 1)
          ⟨prev.offset, prev.sums.set ((logical - prev.offset) / p.sectorsize) digest⟩
      else if MAX_CSUM_ITEMS p ≤ prev.sums.length then
        insertNewCsum p t logical digest false none
      else if MAX_CSUM_ITEMS p ≤ (logical - prev.offset) / p.sectorsize then
        insertNewCsum p t logical digest false none
      else if prev.sums.length ≤ (logical - prev.offset) / p.sectorsize then
        if ((logical - prev.offset) / p.sectorsize + 1) * p.csumSize -
            prev.sums.length * p.csumSize = p.csumSize then
          t.set ((searchSlot t logical).2 - 1)
            ⟨prev.offset, (prev.sums ++ [0]).set ((logical - prev.offset) / p.sectorsize) digest⟩
        else
          insertNewCsum p t logical digest false none
      else
        insertNewCsum p t logical digest false none
    | none => t

/-- memset_extent_buffer over digest slots: zero `n` digest slots starting
at slot `s`. -/
def zeroSlots : List Nat → Nat → Nat → List Nat
  | [], _, _ => []
  | _ :: xs, 0, n + 1 => 0 :: zeroSlots xs 0 n
  | x :: xs, 0, 0 => x :: xs
  | x :: xs, s + 1, n => x :: zeroSlots xs s n

/-- truncate_one_csum: tail overlap (key->offset < bytenr and csum_end at
or before end_byte) keeps the first (bytenr - offset) / sectorsize digests;
head overlap (key->offset at or past bytenr, csum_end past end_byte,
end_byte past key->offset) keeps the last (csum_end - end_byte) / sectorsize
digests and rewrites the key offset to end_byte.  Any other overlap hits
BUG() in the C code; it is unreachable from btrfs_del_csums and modelled as
the identity. -/
def truncate_one_csum (p : Params) (bytenr len : Nat) (it : CsumItem) : CsumItem :=
  let endByte := bytenr + len
  let csumEnd := itemEnd p it
  if it.offset < bytenr ∧ csumEnd ≤ endByte then
    ⟨it.offset, it.sums.take ((bytenr - it.offset) / p.sectorsize)⟩
  else if bytenr ≤ it.offset ∧ endByte < csumEnd ∧ it.offset < endByte then
    ⟨endByte, it.sums.drop (it.sums.length - (csumEnd - endByte) / p.sectorsize)⟩
  else
    it

/-- Termination weight of one item for the btrfs_del_csums loop: deleting,
truncating or splitting the found item strictly shrinks the summed weight.
An item straddling `bytenr` weighs two extra so that the in-place split
(which preserves digests and adds an item) still decreases the sum. -/
def weight (p : Params) (bytenr : Nat) (it : CsumItem) : Nat :=
  3 * it.sums.length + 1 + (if it.offset < bytenr ∧ bytenr < itemEnd p it then 2 else 0)

/-- Summed termination weight of a tree for the btrfs_del_csums loop. -/
def delMeasure (p : Params) (bytenr : Nat) (t : Tree) : Nat :=
  (t.map (weight p bytenr)).sum

/-- The while(1) loop of btrfs_del_csums, with explicit fuel (the loop
terminates; `btrfs_del_csums` below supplies fuel strictly above the
summed weight, which the lemmas show never runs out).  Each round searches
at-or-before end_byte - 1, stops when no overlapping item remains, and
otherwise deletes a fully-contained item, splits an item that straddles
both boundaries in place (zeroing the freed digest slots first), or hands
a one-sided overlap to truncate_one_csum. -/
def delLoopF (p : Params) (bytenr len : Nat) : Nat → Tree → Tree
  | 0, t => t
  | fuel + 1, t =>
    let endByte := bytenr + len
    match foundSlot t (endByte - 1) with
    | none => t
    | some j =>
      match t[j]? with
      | none => t
      | some it =>
        if endByte ≤ it.offset then t
        else
          let csumEnd := itemEnd p it
          if csumEnd ≤ bytenr then t
          else if bytenr ≤ it.offset ∧ csumEnd ≤ endByte then
            delLoopF p bytenr len fuel (t.eraseIdx j)
          else if it.offset < bytenr ∧ endByte < csumEnd then
            let dIdx := (bytenr - it.offset) / p.sectorsize
            let z := zeroSlots it.sums dIdx (len / p.sectorsize)
            delLoopF p bytenr len fuel
              (t.take j ++ ⟨it.offset, z.take dIdx⟩ :: ⟨bytenr, z.drop dIdx⟩ :: t.drop (j + 1))
          else
            delLoopF p bytenr len fuel (t.set j (truncate_one_csum p bytenr len it))

/-- The errno value ENOMEM. -/
def ENOMEM : Int := 12

/-- btrfs_del_csums: -ENOMEM when the path allocation fails, otherwise run
the deletion loop and return 0; no error from the loop body is ever
propagated (failures of the inner steps are BUG()/BUG_ON assertions). -/
def btrfs_del_csums (p : Params) (allocOk : Bool) (bytenr len : Nat) (t : Tree) : Int × Tree :=
  if allocOk then
    (0, delLoopF p bytenr len (delMeasure p bytenr t + 1) t)
  else
    (-ENOMEM, t)

/-- The digest an item stores for byte `x`, when its range covers `x`. -/
def coversItem (p : Params) (x : Nat) (it : CsumItem) : Option Nat :=
  if it.offset ≤ x ∧ x < itemEnd p it then it.sums[(x - it.offset) / p.sectorsize]? else none

/-- The digest a tree stores for byte `x` (the trees of interest hold at
most one covering item). -/
def covers (p : Params) (t : Tree) (x : Nat) : Option Nat :=
  t.findSome? (coversItem p x)

/-- Well-formed checksum tree: sector-aligned keys, no empty item bodies,
and consecutive items in key order with disjoint coverage. -/
def WF (p : Params) (t : Tree) : Prop :=
  (∀ it ∈ t, p.sectorsize ∣ it.offset ∧ it.sums ≠ []) ∧
  t.Pairwise (fun a b => itemEnd p a ≤ b.offset)

/-- Invariant I3: no item holds more than MAX_CSUM_ITEMS digests. -/
def SizeBound (p : Params) (t : Tree) : Prop :=
  ∀ it ∈ t, it.sums.length ≤ MAX_CSUM_ITEMS p

/-- Invariant I2: no two items describe overlapping sector ranges. -/
def NoOverlap (p : Params) (t : Tree) : Prop :=
  t.Pairwise (fun a b => itemEnd p a ≤ b.offset ∨ itemEnd p b ≤ a.offset)

/-- An operation of the checksum write or delete path. -/
inductive Op where
  | upsert (logical digest : Nat)
  | delRange (bytenr len : Nat)

/-- Interface contract of the two mutating operations: byte offsets and
lengths are sector-aligned (the spec leaves other calls undefined by
design) and a deletion range is nonempty. -/
def ValidOp (p : Params) : Op → Prop
  | .upsert logical _ => p.sectorsize ∣ logical
  | .delRange bytenr len => p.sectorsize ∣ bytenr ∧ p.sectorsize ∣ len ∧ 0 < len

/-- Apply one operation to a tree. -/
def applyOp (p : Params) (t : Tree) : Op → Tree
  | .upsert logical digest => btrfs_csum_file_block p t logical digest
  | .delRange bytenr len => (btrfs_del_csums p true bytenr len t).2

/-- Apply a sequence of operations to a tree. -/
def applyOps (p : Params) (ops : List Op) (t : Tree) : Tree :=
  ops.foldl (applyOp p) t

/-- Apply a sequence of btrfs_csum_file_block calls, each given as the pair
of its logical offset and the digest of that sector's data. -/
def applyUpserts (p : Params) (ops : List (Nat × Nat)) (t : Tree) : Tree :=
  ops.foldl (fun cur pr => btrfs_csum_file_block p cur pr.1 pr.2) t

/-- The digest of the last write in `ops` targeting offset `x`, if any:
writes later in the list shadow earlier ones. -/
def lastDigest : List (Nat × Nat) → Nat → Option Nat
  | [], _ => none
  | op :: ops, x =>
    match lastDigest ops x with
    | some d => some d
    | none => if op.1 = x then some op.2 else none

/-- Whether a lookup result is one of the two not-found outcomes. -/
def isNotFound : Except LookupErr Nat → Bool
  | .error _ => true
  | .ok _ => false

instance (p : Params) (t : Tree) : Decidable (WF p t) :=
  decidable_of_iff ((∀ it ∈ t, p.sectorsize ∣ it.offset ∧ it.sums ≠ []) ∧
    t.Pairwise (fun a b => itemEnd p a ≤ b.offset)) Iff.rfl

instance (p : Params) (t : Tree) : Decidable (SizeBound p t) :=
  decidable_of_iff (∀ it ∈ t, it.sums.length ≤ MAX_CSUM_ITEMS p) Iff.rfl

instance (p : Params) (t : Tree) : Decidable (NoOverlap p t) :=
  decidable_of_iff (t.Pairwise fun a b => itemEnd p a ≤ b.offset ∨ itemEnd p b ≤ a.offset)
    Iff.rfl

instance (p : Params) (op : Op) : Decidable (ValidOp p op) := by
  cases op with
  | upsert logical digest => exact decidable_of_iff (p.sectorsize ∣ logical) Iff.rfl
  | delRange bytenr len =>
      exact decidable_of_iff (p.sectorsize ∣ bytenr ∧ p.sectorsize ∣ len ∧ 0 < len) Iff.rfl

theorem covers_nil (p : Params) (x : Nat) : covers p [] x = none := rfl

theorem covers_cons (p : Params) (it : CsumItem) (t : Tree) (x : Nat) :
    covers p (it :: t) x = (coversItem p x it).or (covers p t x) := by
  cases h : coversItem p x it with
  | none => simp [covers, List.findSome?_cons, h]
  | some d => simp [covers, List.findSome?_cons, h]

theorem covers_append (p : Params) (l₁ l₂ : Tree) (x : Nat) :
    covers p (l₁ ++ l₂) x = (covers p l₁ x).or (covers p l₂ x) :=
  List.findSome?_append

theorem coversItem_eq_none_of_le (p : Params) (x : Nat) (it : CsumItem)
    (h : itemEnd p it ≤ x) : coversItem p x it = none := by
  simp only [coversItem, ite_eq_right_iff]
  intro hc
  omega

theorem coversItem_eq_none_of_lt (p : Params) (x : Nat) (it : CsumItem)
    (h : x < it.offset) : coversItem p x it = none := by
  simp only [coversItem, ite_eq_right_iff]
  intro hc
  omega

theorem covers_eq_none (p : Params) (t : Tree) (x : Nat)
    (h : ∀ it ∈ t, itemEnd p it ≤ x ∨ x < it.offset) : covers p t x = none := by
  induction t with
  | nil => rfl
  | cons a t ih =>
      rw [covers_cons]
      rcases h a (by simp) with h1 | h1
      · rw [coversItem_eq_none_of_le p x a h1, Option.none_or]
        exact ih fun it hit => h it (by simp [hit])
      · rw [coversItem_eq_none_of_lt p x a h1, Option.none_or]
        exact ih fun it hit => h it (by simp [hit])

theorem insPoint_le_length (t : Tree) (off : Nat) : insPoint t off ≤ t.length := by
  induction t with
  | nil => simp [insPoint]
  | cons a t ih =>
      simp only [insPoint]
      split
      · simp
      · simpa using ih

theorem offset_lt_of_lt_insPoint {t : Tree} {off k : Nat} {it : CsumItem}
    (hk : k < insPoint t off) (h : t[k]? = some it) : it.offset < off := by
  induction t generalizing k with
  | nil => simp at h
  | cons a t ih =>
      simp only [insPoint] at hk
      split at hk
      · omega
      · cases k with
        | zero =>
            simp only [List.getElem?_cons_zero, Option.some.injEq] at h
            subst h
            omega
        | succ k =>
            simp only [List.getElem?_cons_succ] at h
            exact ih (by omega) h

theorem le_offset_of_insPoint {t : Tree} {off : Nat} {it : CsumItem}
    (h : t[insPoint t off]? = some it) : off ≤ it.offset := by
  induction t with
  | nil => simp at h
  | cons a t ih =>
      simp only [insPoint] at h ⊢
      split at h
      · simp only [List.getElem?_cons_zero, Option.some.injEq] at h
        subst h
        assumption
      · simp only [List.getElem?_cons_succ] at h
        exact ih h

/-- Strictly increasing key offsets. -/
def SortedLt (t : Tree) : Prop := t.Pairwise (fun a b => a.offset < b.offset)

theorem WF.aligned {p : Params} {t : Tree} (h : WF p t) {it : CsumItem} (hit : it ∈ t) :
    p.sectorsize ∣ it.offset := (h.1 it hit).1

theorem WF.nonempty {p : Params} {t : Tree} (h : WF p t) {it : CsumItem} (hit : it ∈ t) :
    it.sums ≠ [] := (h.1 it hit).2

theorem WF.pos_len {p : Params} {t : Tree} (h : WF p t) {it : CsumItem} (hit : it ∈ t) :
    0 < it.sums.length := List.length_pos.mpr (h.nonempty hit)

theorem offset_lt_itemEnd {p : Params} (hS : 0 < p.sectorsize) {it : CsumItem}
    (h : 0 < it.sums.length) : it.offset < itemEnd p it := by
  have : 0 < it.sums.length * p.sectorsize := Nat.mul_pos h hS
  simp only [itemEnd]
  omega

theorem WF.sortedLt {p : Params} {t : Tree} (hS : 0 < p.sectorsize) (h : WF p t) :
    SortedLt t := by
  refine h.2.imp_of_mem ?_
  intro a b ha hb hab
  exact Nat.lt_of_lt_of_le (offset_lt_itemEnd hS (h.pos_len ha)) hab

theorem getElem_of_getElem? {t : Tree} {k : Nat} {it : CsumItem} (h : t[k]? = some it) :
    ∃ hk : k < t.length, t[k] = it := by
  have hkl : k < t.length := (List.getElem?_eq_some.mp h).1
  refine ⟨hkl, ?_⟩
  rw [List.getElem?_eq_getElem hkl] at h
  simpa using h

theorem sorted_getElem?_lt {t : Tree} {k l : Nat} {a b : CsumItem} (hs : SortedLt t)
    (ha : t[k]? = some a) (hb : t[l]? = some b) (hkl : k < l) : a.offset < b.offset := by
  obtain ⟨hk, hae⟩ := getElem_of_getElem? ha
  obtain ⟨hl, hbe⟩ := getElem_of_getElem? hb
  have := List.pairwise_iff_getElem.mp hs k l hk hl hkl
  rw [hae, hbe] at this
  exact this

theorem le_offset_of_sorted {t : Tree} {off k : Nat} {it : CsumItem} (hs : SortedLt t)
    (hk : insPoint t off ≤ k) (h : t[k]? = some it) : off ≤ it.offset := by
  rcases Nat.eq_or_lt_of_le hk with he | hl
  · exact le_offset_of_insPoint (he ▸ h)
  · have hkl : k < t.length := (List.getElem?_eq_some.mp h).1
    have hil : insPoint t off < t.length := Nat.lt_trans hl hkl
    have h0 : t[insPoint t off]? = some t[insPoint t off] := List.getElem?_eq_getElem hil
    have h1 : off ≤ t[insPoint t off].offset := le_offset_of_insPoint h0
    have h2 : t[insPoint t off].offset < it.offset := sorted_getElem?_lt hs h0 h hl
    omega

theorem searchSlot_snd (t : Tree) (off : Nat) : (searchSlot t off).2 = insPoint t off := rfl

theorem searchSlot_fst_true {t : Tree} {off : Nat} (h : (searchSlot t off).1 = true) :
    ∃ it, t[insPoint t off]? = some it ∧ it.offset = off := by
  simp only [searchSlot] at h
  split at h
  · rename_i it hit
    exact ⟨it, hit, by simpa using h⟩
  · simp at h

theorem searchSlot_fst_false {t : Tree} {off : Nat} (h : (searchSlot t off).1 = false)
    {it : CsumItem} (hit : t[insPoint t off]? = some it) : it.offset ≠ off := by
  simp only [searchSlot] at h
  rw [hit] at h
  simpa using h

theorem foundSlot_lt_length {t : Tree} {off j : Nat} (h : foundSlot t off = some j) :
    j < t.length := by
  unfold foundSlot at h
  cases hb : (searchSlot t off).1 with
  | true =>
      rw [hb] at h
      simp only [if_pos, searchSlot_snd, Option.some.injEq] at h
      obtain ⟨it, hit, _⟩ := searchSlot_fst_true hb
      have := (List.getElem?_eq_some.mp hit).1
      omega
  | false =>
      rw [hb] at h
      simp only [Bool.false_eq_true, if_false, searchSlot_snd] at h
      split at h
      · simp at h
      · rename_i hne
        simp only [Option.some.injEq] at h
        have := insPoint_le_length t off
        omega

theorem foundSlot_some {t : Tree} {off j : Nat} (h : foundSlot t off = some j) :
    ∃ it, t[j]? = some it ∧ it.offset ≤ off := by
  have hjl := foundSlot_lt_length h
  refine ⟨t[j], List.getElem?_eq_getElem hjl, ?_⟩
  unfold foundSlot at h
  cases hb : (searchSlot t off).1 with
  | true =>
      rw [hb] at h
      simp only [if_pos, searchSlot_snd, Option.some.injEq] at h
      obtain ⟨it, hit, hoff⟩ := searchSlot_fst_true hb
      subst h
      obtain ⟨_, he⟩ := getElem_of_getElem? hit
      rw [he, hoff]
  | false =>
      rw [hb] at h
      simp only [Bool.false_eq_true, if_false, searchSlot_snd] at h
      split at h
      · simp at h
      · rename_i hne
        simp only [Option.some.injEq] at h
        subst h
        have hj : insPoint t off - 1 < insPoint t off := by omega
        exact Nat.le_of_lt (offset_lt_of_lt_insPoint hj (List.getElem?_eq_getElem hjl))

theorem foundSlot_after {t : Tree} {off j : Nat} (hs : SortedLt t)
    (h : foundSlot t off = some j) :
    ∀ k it2, j < k → t[k]? = some it2 → off < it2.offset := by
  intro k it2 hjk hk
  unfold foundSlot at h
  cases hb : (searchSlot t off).1 with
  | true =>
      rw [hb] at h
      simp only [if_pos, searchSlot_snd, Option.some.injEq] at h
      subst h
      obtain ⟨it, hit, hoff⟩ := searchSlot_fst_true hb
      have := sorted_getElem?_lt hs hit hk hjk
      omega
  | false =>
      rw [hb] at h
      simp only [Bool.false_eq_true, if_false, searchSlot_snd] at h
      split at h
      · simp at h
      · rename_i hne
        simp only [Option.some.injEq] at h
        subst h
        have hik : insPoint t off ≤ k := by omega
        have hle : off ≤ it2.offset := le_offset_of_sorted hs hik hk
        rcases Nat.eq_or_lt_of_le hle with he | hl
        · exfalso
          rcases Nat.eq_or_lt_of_le hik with hik2 | hik2
          · exact searchSlot_fst_false hb (hik2 ▸ hk) he.symm
          · have hkl : k < t.length := (List.getElem?_eq_some.mp hk).1
            have hjl : insPoint t off < t.length := Nat.lt_trans hik2 hkl
            have h1 : off ≤ t[insPoint t off].offset :=
              le_offset_of_insPoint (List.getElem?_eq_getElem hjl)
            have h2 : t[insPoint t off].offset < it2.offset :=
              sorted_getElem?_lt hs (List.getElem?_eq_getElem hjl) hk hik2
            omega
        · exact hl

theorem foundSlot_none {t : Tree} {off : Nat} (hs : SortedLt t)
    (h : foundSlot t off = none) : ∀ it ∈ t, off < it.offset := by
  intro it hit
  rcases List.mem_iff_getElem?.mp hit with ⟨k, hk⟩
  unfold foundSlot at h
  cases hb : (searchSlot t off).1 with
  | true => rw [hb] at h; simp at h
  | false =>
      rw [hb] at h
      simp only [Bool.false_eq_true, if_false, searchSlot_snd] at h
      split at h
      · rename_i h0
        have hle : off ≤ it.offset := le_offset_of_sorted hs (h0 ▸ Nat.zero_le k) hk
        rcases Nat.eq_or_lt_of_le hle with he | hl
        · exfalso
          rcases Nat.eq_zero_or_pos k with hk0 | hkpos
          · subst hk0
            exact searchSlot_fst_false hb (h0.symm ▸ hk) he.symm
          · have hkl : k < t.length := (List.getElem?_eq_some.mp hk).1
            have h0l : 0 < t.length := by omega
            have hi0 : t[insPoint t off]? = some t[0] := by
              rw [h0]
              exact List.getElem?_eq_getElem h0l
            have h1 : off ≤ t[0].offset := le_offset_of_insPoint hi0
            have h2 : t[0].offset < it.offset :=
              sorted_getElem?_lt hs (List.getElem?_eq_getElem h0l) hk hkpos
            omega
        · exact hl
      · simp at h

theorem zeroSlots_length (l : List Nat) (s n : Nat) : (zeroSlots l s n).length = l.length := by
  induction l generalizing s n with
  | nil => simp [zeroSlots]
  | cons x xs ih =>
      cases s with
      | zero =>
          cases n with
          | zero => simp [zeroSlots]
          | succ n => simp [zeroSlots, ih]
      | succ s => simp [zeroSlots, ih]

theorem zeroSlots_getElem? (l : List Nat) (s n k : Nat) :
    (zeroSlots l s n)[k]? =
      if s ≤ k ∧ k < s + n then (l[k]?).map (fun _ => 0) else l[k]? := by
  induction l generalizing s n k with
  | nil =>
      simp only [zeroSlots, List.getElem?_nil, Option.map_none]
      split <;> rfl
  | cons x xs ih =>
      cases s with
      | zero =>
          cases n with
          | zero =>
              have : ¬(0 ≤ k ∧ k < 0 + 0) := by omega
              simp [zeroSlots, this]
          | succ n =>
              cases k with
              | zero => simp [zeroSlots]
              | succ k =>
                  simp only [zeroSlots, List.getElem?_cons_succ, ih]
                  have h1 : (0 ≤ k + 1 ∧ k + 1 < 0 + (n + 1)) ↔ (0 ≤ k ∧ k < 0 + n) := by omega
                  by_cases hc : 0 ≤ k ∧ k < 0 + n
                  · rw [if_pos hc, if_pos (h1.mpr hc)]
                  · rw [if_neg hc, if_neg (fun hx => hc (h1.mp hx))]
      | succ s =>
          cases k with
          | zero =>
              have : ¬(s + 1 ≤ 0 ∧ 0 < s + 1 + n) := by omega
              simp [zeroSlots, this]
          | succ k =>
              simp only [zeroSlots, List.getElem?_cons_succ, ih]
              have h1 : (s + 1 ≤ k + 1 ∧ k + 1 < s + 1 + n) ↔ (s ≤ k ∧ k < s + n) := by omega
              by_cases hc : s ≤ k ∧ k < s + n
              · rw [if_pos hc, if_pos (h1.mpr hc)]
              · rw [if_neg hc, if_neg (fun hx => hc (h1.mp hx))]

theorem zeroSlots_getElem?_lt {l : List Nat} {s n k : Nat} (hk : k < s) :
    (zeroSlots l s n)[k]? = l[k]? := by
  rw [zeroSlots_getElem?]
  have : ¬(s ≤ k ∧ k < s + n) := by omega
  rw [if_neg this]

theorem zeroSlots_getElem?_ge {l : List Nat} {s n k : Nat} (hk : s + n ≤ k) :
    (zeroSlots l s n)[k]? = l[k]? := by
  rw [zeroSlots_getElem?]
  have : ¬(s ≤ k ∧ k < s + n) := by omega
  rw [if_neg this]

theorem zeroSlots_take {l : List Nat} {s n : Nat} : (zeroSlots l s n).take s = l.take s := by
  apply List.ext_getElem?
  intro k
  by_cases hk : k < s
  · rw [List.getElem?_take_of_lt hk, List.getElem?_take_of_lt hk, zeroSlots_getElem?_lt hk]
  · have h1 : ((zeroSlots l s n).take s)[k]? = none := by
      refine List.getElem?_eq_none ?_
      have := List.length_take_le s (zeroSlots l s n)
      omega
    have h2 : (l.take s)[k]? = none := by
      refine List.getElem?_eq_none ?_
      have := List.length_take_le s l
      omega
    rw [h1, h2]

theorem zeroSlots_drop {l : List Nat} {s n : Nat} :
    (zeroSlots l s n).drop (s + n) = l.drop (s + n) := by
  apply List.ext_getElem?
  intro k
  rw [List.getElem?_drop, List.getElem?_drop, zeroSlots_getElem?_ge (by omega)]

theorem mem_of_getElem?_tree {t : Tree} {j : Nat} {it : CsumItem} (h : t[j]? = some it) :
    it ∈ t := by
  obtain ⟨hj, he⟩ := getElem_of_getElem? h
  exact he ▸ List.getElem_mem hj

theorem eq_take_cons_drop {t : Tree} {j : Nat} {it : CsumItem} (h : t[j]? = some it) :
    t = t.take j ++ it :: t.drop (j + 1) := by
  obtain ⟨hj, he⟩ := getElem_of_getElem? h
  conv_lhs => rw [← List.take_append_drop j t]
  rw [List.drop_eq_getElem_cons hj, he]

theorem covers_decomp {p : Params} {t : Tree} {j : Nat} {it : CsumItem}
    (h : t[j]? = some it) (x : Nat) :
    covers p t x =
      (covers p (t.take j) x).or ((coversItem p x it).or (covers p (t.drop (j + 1)) x)) := by
  conv_lhs => rw [eq_take_cons_drop h]
  rw [covers_append, covers_cons]

theorem wf_before {p : Params} {t : Tree} {j : Nat} {it : CsumItem} (hwf : WF p t)
    (h : t[j]? = some it) : ∀ a ∈ t.take j, itemEnd p a ≤ it.offset := by
  have hp := hwf.2
  rw [eq_take_cons_drop h, List.pairwise_append] at hp
  intro a ha
  exact hp.2.2 a ha it (by simp)

theorem wf_after {p : Params} {t : Tree} {j : Nat} {it : CsumItem} (hwf : WF p t)
    (h : t[j]? = some it) : ∀ b ∈ t.drop (j + 1), itemEnd p it ≤ b.offset := by
  have hp := hwf.2
  rw [eq_take_cons_drop h, List.pairwise_append, List.pairwise_cons] at hp
  exact hp.2.1.1

theorem covers_drop_eq_none {p : Params} {t : Tree} {x j : Nat}
    (h : ∀ k it2, j < k → t[k]? = some it2 → x < it2.offset) :
    covers p (t.drop (j + 1)) x = none := by
  refine covers_eq_none p _ x ?_
  intro it hit
  rcases List.mem_iff_getElem?.mp hit with ⟨m, hm⟩
  rw [List.getElem?_drop] at hm
  exact Or.inr (h (j + 1 + m) it (by omega) hm)

/-- Convert a lookup result to the digest it found, if any. -/
def exceptToOption : Except LookupErr Nat → Option Nat
  | .ok d => some d
  | .error _ => none

theorem lookup_eq_covers {p : Params} {t : Tree} {x : Nat}
    (hS : 0 < p.sectorsize) (hwf : WF p t) :
    exceptToOption (btrfs_lookup_csum p t x) = covers p t x := by
  have hs := hwf.sortedLt hS
  unfold btrfs_lookup_csum
  cases hb : (searchSlot t x).1 with
  | true =>
      obtain ⟨it, hit, hoff⟩ := searchSlot_fst_true hb
      have hfound : foundSlot t x = some (insPoint t x) := by
        unfold foundSlot
        rw [hb]
        simp [searchSlot_snd]
      simp only [hb, if_pos, searchSlot_snd]
      rw [hit]
      have hmem := mem_of_getElem?_tree hit
      have hlen := hwf.pos_len hmem
      rw [covers_decomp hit x]
      have h1 : covers p (t.take (insPoint t x)) x = none := by
        refine covers_eq_none p _ x ?_
        intro a ha
        exact Or.inl (Nat.le_trans (wf_before hwf hit a ha) (Nat.le_of_eq hoff))
      have h2 : covers p (t.drop (insPoint t x + 1)) x = none := by
        refine covers_drop_eq_none ?_
        intro k it2 hk hk2
        exact foundSlot_after hs hfound k it2 hk hk2
      have h3 : coversItem p x it = some (it.sums.getD 0 0) := by
        have hcond : it.offset ≤ x ∧ x < itemEnd p it := by
          constructor
          · omega
          · have : 0 < it.sums.length * p.sectorsize := Nat.mul_pos hlen hS
            simp only [itemEnd]
            omega
        rw [coversItem, if_pos hcond, hoff, Nat.sub_self, Nat.zero_div,
          List.getElem?_eq_getElem hlen]
        simp [List.getElem?_eq_getElem hlen]
      rw [h1, h2, h3]
      simp [exceptToOption]
  | false =>
      simp only [hb, Bool.false_eq_true, if_false, searchSlot_snd]
      by_cases h0 : insPoint t x = 0
      · have hfound : foundSlot t x = none := by
          unfold foundSlot
          rw [hb]
          simp [searchSlot_snd, h0]
        rw [if_pos h0]
        have : covers p t x = none := by
          refine covers_eq_none p t x ?_
          intro it hit
          exact Or.inr (foundSlot_none hs hfound it hit)
        rw [this]
        rfl
      · rw [if_neg h0]
        have hfound : foundSlot t x = some (insPoint t x - 1) := by
          unfold foundSlot
          rw [hb]
          simp [searchSlot_snd, h0]
        obtain ⟨prev, hprev, hple⟩ := foundSlot_some hfound
        rw [hprev]
        dsimp only
        have hmem := mem_of_getElem?_tree hprev
        have hlen := hwf.pos_len hmem
        have hlt : prev.offset < x :=
          offset_lt_of_lt_insPoint (by omega) hprev
        rw [covers_decomp hprev x]
        have h1 : covers p (t.take (insPoint t x - 1)) x = none := by
          refine covers_eq_none p _ x ?_
          intro a ha
          exact Or.inl (Nat.le_trans (wf_before hwf hprev a ha) (Nat.le_of_lt hlt))
        have h2 : covers p (t.drop (insPoint t x - 1 + 1)) x = none := by
          refine covers_drop_eq_none ?_
          intro k it2 hk hk2
          exact foundSlot_after hs hfound k it2 hk hk2
        rw [h1, h2, Option.none_or]
        by_cases hco : prev.sums.length ≤ (x - prev.offset) / p.sectorsize
        · rw [if_pos hco]
          have hend : itemEnd p prev ≤ x := by
            have := (Nat.le_div_iff_mul_le hS).mp hco
            simp only [itemEnd]
            omega
          rw [coversItem_eq_none_of_le p x prev hend]
          rfl
        · rw [if_neg hco]
          push_neg at hco
          have h3 : coversItem p x prev =
              some (prev.sums.getD ((x - prev.offset) / p.sectorsize) 0) := by
            have hcond : prev.offset ≤ x ∧ x < itemEnd p prev := by
              refine ⟨Nat.le_of_lt hlt, ?_⟩
              have := (Nat.div_lt_iff_lt_mul hS).mp hco
              simp only [itemEnd]
              omega
            rw [coversItem, if_pos hcond, List.getElem?_eq_getElem hco]
            simp [List.getElem?_eq_getElem hco]
          rw [h3]
          simp [exceptToOption]

theorem aligned_succ {S a b : Nat} (hS : 0 < S) (ha : S ∣ a) (hb : S ∣ b) (h : a < b) :
    a + S ≤ b := by
  obtain ⟨k, rfl⟩ := ha
  obtain ⟨m, rfl⟩ := hb
  have hkm : k < m := by
    by_contra hc
    push_neg at hc
    exact absurd (Nat.mul_le_mul_left S hc) (by omega)
  have h2 : S * (k + 1) ≤ S * m := Nat.mul_le_mul_left S hkm
  rw [Nat.mul_succ] at h2
  omega

theorem covers_take_eq_none {p : Params} {t : Tree} {j : Nat} {it : CsumItem} {x : Nat}
    (hwf : WF p t) (hj : t[j]? = some it) (hx : it.offset ≤ x) :
    covers p (t.take j) x = none := by
  refine covers_eq_none p _ x ?_
  intro a ha
  exact Or.inl (Nat.le_trans (wf_before hwf hj a ha) hx)

theorem covers_set_decomp {p : Params} {t : Tree} {j : Nat} {it it' : CsumItem}
    (hj : t[j]? = some it) (x : Nat) :
    covers p (t.set j it') x =
      (covers p (t.take j) x).or ((coversItem p x it').or (covers p (t.drop (j + 1)) x)) := by
  obtain ⟨hjl, _⟩ := getElem_of_getElem? hj
  rw [List.set_eq_take_cons_drop it' hjl, covers_append, covers_cons]

theorem wf_set {p : Params} {t : Tree} {j : Nat} {it it' : CsumItem}
    (hwf : WF p t) (hj : t[j]? = some it)
    (ha : p.sectorsize ∣ it'.offset) (hne : it'.sums ≠ [])
    (hbefore : ∀ a ∈ t.take j, itemEnd p a ≤ it'.offset)
    (hafter : ∀ b ∈ t.drop (j + 1), itemEnd p it' ≤ b.offset) :
    WF p (t.set j it') := by
  obtain ⟨hjl, _⟩ := getElem_of_getElem? hj
  rw [List.set_eq_take_cons_drop it' hjl]
  constructor
  · intro a hain
    rw [List.mem_append, List.mem_cons] at hain
    rcases hain with h | h | h
    · exact hwf.1 a (List.mem_of_mem_take h)
    · exact h ▸ ⟨ha, hne⟩
    · exact hwf.1 a (List.mem_of_mem_drop h)
  · have hp := hwf.2
    rw [eq_take_cons_drop hj, List.pairwise_append, List.pairwise_cons] at hp
    rw [List.pairwise_append, List.pairwise_cons]
    refine ⟨hp.1, ⟨hafter, hp.2.1.2⟩, ?_⟩
    intro a hain b hbin
    rcases List.mem_cons.mp hbin with hb | hb
    · exact hb ▸ hbefore a hain
    · exact hp.2.2 a hain b (List.mem_cons_of_mem it hb)

theorem wf_insert_at {p : Params} {t : Tree} {i : Nat} {nit : CsumItem}
    (hwf : WF p t)
    (ha : p.sectorsize ∣ nit.offset) (hne : nit.sums ≠ [])
    (hbefore : ∀ a ∈ t.take i, itemEnd p a ≤ nit.offset)
    (hafter : ∀ b ∈ t.drop i, itemEnd p nit ≤ b.offset) :
    WF p (t.take i ++ nit :: t.drop i) := by
  constructor
  · intro a hain
    rw [List.mem_append, List.mem_cons] at hain
    rcases hain with h | h | h
    · exact hwf.1 a (List.mem_of_mem_take h)
    · exact h ▸ ⟨ha, hne⟩
    · exact hwf.1 a (List.mem_of_mem_drop h)
  · have hp := hwf.2
    conv at hp => rw [← List.take_append_drop i t]
    rw [List.pairwise_append] at hp
    rw [List.pairwise_append, List.pairwise_cons]
    refine ⟨hp.1, ⟨hafter, hp.2.1⟩, ?_⟩
    intro a hain b hbin
    rcases List.mem_cons.mp hbin with hb | hb
    · exact hb ▸ hbefore a hain
    · exact hp.2.2 a hain b hb

theorem covers_insert_at (p : Params) (t : Tree) (i : Nat) (nit : CsumItem) (x : Nat) :
    covers p (t.take i ++ nit :: t.drop i) x =
      (covers p (t.take i) x).or ((coversItem p x nit).or (covers p (t.drop i) x)) := by
  rw [covers_append, covers_cons]

theorem covers_take_drop (p : Params) (t : Tree) (i : Nat) (x : Nat) :
    (covers p (t.take i) x).or (covers p (t.drop i) x) = covers p t x := by
  rw [← covers_append, List.take_append_drop]

theorem insertSize_eq {p : Params} (hC : 0 < p.csumSize) (hM : 1 ≤ MAX_CSUM_ITEMS p)
    (logical : Nat) (foundNext : Bool) (nextOffset : Option Nat) :
    insertSize p logical foundNext nextOffset = p.csumSize := by
  unfold insertSize
  cases foundNext with
  | false => simp
  | true =>
      simp only [if_pos]
      have h1 : min (logical + p.sectorsize) (nextOffset.getD (logical + p.sectorsize)) -
          logical ≤ p.sectorsize := by
        have := Nat.min_le_left (logical + p.sectorsize)
          (nextOffset.getD (logical + p.sectorsize))
        omega
      have htmp : (min (logical + p.sectorsize) (nextOffset.getD (logical + p.sectorsize)) -
          logical) / p.sectorsize ≤ 1 := by
        rcases Nat.eq_zero_or_pos p.sectorsize with hS | hS
        · simp [hS]
        · have := (Nat.div_lt_iff_lt_mul hS).mpr (by omega :
            min (logical + p.sectorsize) (nextOffset.getD (logical + p.sectorsize)) - logical <
              2 * p.sectorsize)
          omega
      rw [Nat.max_eq_left htmp, Nat.min_eq_left hM, Nat.mul_one]

theorem insertNewCsum_eq {p : Params} (hC : 0 < p.csumSize) (hM : 1 ≤ MAX_CSUM_ITEMS p)
    (t : Tree) (logical digest : Nat) (fn : Bool) (no : Option Nat) :
    insertNewCsum p t logical digest fn no =
      t.take (insPoint t logical) ++ ⟨logical, [digest]⟩ :: t.drop (insPoint t logical) := by
  unfold insertNewCsum
  rw [insertSize_eq hC hM, Nat.div_self hC]
  rfl

theorem covers_drop_eq_none_wf {p : Params} {t : Tree} {j : Nat} {it : CsumItem} {x : Nat}
    (hwf : WF p t) (hj : t[j]? = some it) (hx : x < itemEnd p it) :
    covers p (t.drop (j + 1)) x = none := by
  refine covers_eq_none p _ x ?_
  intro b hb
  exact Or.inr (Nat.lt_of_lt_of_le hx (wf_after hwf hj b hb))

theorem append_zero_set (l : List Nat) (d : Nat) : (l ++ [0]).set l.length d = l ++ [d] := by
  induction l with
  | nil => rfl
  | cons x xs ih => simpa [List.set] using ih

/-- Effect of overwriting digest slot `co` of the item at index `j` in place:
the tree stays well formed and exactly the sector window at `logical` now
reads the new digest. -/
theorem set_slot_spec {p : Params} {t : Tree} {j : Nat} {it : CsumItem}
    {co digest logical : Nat}
    (hS : 0 < p.sectorsize) (hwf : WF p t) (hj : t[j]? = some it)
    (hco : co < it.sums.length) (hl : logical = it.offset + co * p.sectorsize) :
    WF p (t.set j ⟨it.offset, it.sums.set co digest⟩) ∧
    ∀ x, covers p (t.set j ⟨it.offset, it.sums.set co digest⟩) x =
      if logical ≤ x ∧ x < logical + p.sectorsize then some digest else covers p t x := by
  have hmem := mem_of_getElem?_tree hj
  have hwin_end : logical + p.sectorsize ≤ itemEnd p it := by
    have h1 : (co + 1) * p.sectorsize ≤ it.sums.length * p.sectorsize :=
      Nat.mul_le_mul_right _ hco
    simp only [itemEnd]
    have : (co + 1) * p.sectorsize = co * p.sectorsize + p.sectorsize := by ring
    omega
  have hend : itemEnd p (⟨it.offset, it.sums.set co digest⟩ : CsumItem) = itemEnd p it := by
    simp [itemEnd]
  constructor
  · have ha' : p.sectorsize ∣ (⟨it.offset, it.sums.set co digest⟩ : CsumItem).offset := by
      show p.sectorsize ∣ it.offset
      exact hwf.aligned hmem
    have hbef : ∀ a ∈ t.take j,
        itemEnd p a ≤ (⟨it.offset, it.sums.set co digest⟩ : CsumItem).offset := by
      show ∀ a ∈ t.take j, itemEnd p a ≤ it.offset
      exact wf_before hwf hj
    refine wf_set hwf hj ha' ?_ hbef ?_
    · exact List.ne_nil_of_length_pos (by simpa using Nat.lt_of_le_of_lt (Nat.zero_le co) hco)
    · rw [hend]
      exact wf_after hwf hj
  · intro x
    rw [covers_set_decomp hj x]
    by_cases hx : logical ≤ x ∧ x < logical + p.sectorsize
    · rw [if_pos hx]
      have h1 : covers p (t.take j) x = none :=
        covers_take_eq_none hwf hj (by omega)
      have h2 : covers p (t.drop (j + 1)) x = none :=
        covers_drop_eq_none_wf hwf hj (by omega)
      have h3 : coversItem p x ⟨it.offset, it.sums.set co digest⟩ = some digest := by
        have hcond : (⟨it.offset, it.sums.set co digest⟩ : CsumItem).offset ≤ x ∧
            x < itemEnd p (⟨it.offset, it.sums.set co digest⟩ : CsumItem) := by
          rw [hend]
          show it.offset ≤ x ∧ x < itemEnd p it
          omega
        rw [coversItem, if_pos hcond]
        show (it.sums.set co digest)[(x - it.offset) / p.sectorsize]? = some digest
        have hidx : (x - it.offset) / p.sectorsize = co := by
          refine Nat.div_eq_of_lt_le ?_ ?_
          · omega
          · have : (co + 1) * p.sectorsize = co * p.sectorsize + p.sectorsize := by ring
            omega
        rw [hidx]
        exact List.getElem?_set_self (by simpa using hco)
      rw [h1, h2, h3]
      rfl
    · rw [if_neg hx]
      have h3 : coversItem p x ⟨it.offset, it.sums.set co digest⟩ = coversItem p x it := by
        by_cases hc : it.offset ≤ x ∧ x < itemEnd p it
        · have hidx : (x - it.offset) / p.sectorsize ≠ co := by
            intro he
            have hlo : co * p.sectorsize ≤ x - it.offset := by
              rw [← he]
              exact Nat.div_mul_le_self _ _
            have hhi : x - it.offset < (co + 1) * p.sectorsize := by
              have := (Nat.div_lt_iff_lt_mul hS).mp (by omega : (x - it.offset) / p.sectorsize < co + 1)
              omega
            have : (co + 1) * p.sectorsize = co * p.sectorsize + p.sectorsize := by ring
            omega
          have hc' : (⟨it.offset, it.sums.set co digest⟩ : CsumItem).offset ≤ x ∧
              x < itemEnd p (⟨it.offset, it.sums.set co digest⟩ : CsumItem) := by
            rw [hend]
            exact hc
          rw [coversItem, coversItem, if_pos hc', if_pos hc]
          show (it.sums.set co digest)[(x - it.offset) / p.sectorsize]? =
            it.sums[(x - it.offset) / p.sectorsize]?
          rw [List.getElem?_set_ne (fun he => hidx he.symm)]
        · have hc' : ¬((⟨it.offset, it.sums.set co digest⟩ : CsumItem).offset ≤ x ∧
              x < itemEnd p (⟨it.offset, it.sums.set co digest⟩ : CsumItem)) := by
            rw [hend]
            exact hc
          rw [coversItem, coversItem, if_neg hc', if_neg hc]
      rw [h3, ← covers_decomp hj x]

/-- Effect of inserting a brand-new one-digest item at the insertion point:
the tree stays well formed and exactly the sector window at `logical` now
reads the new digest. -/
theorem insert_one_spec {p : Params} {t : Tree} {logical digest : Nat}
    (hS : 0 < p.sectorsize) (hwf : WF p t) (hal : p.sectorsize ∣ logical)
    (hbefore : ∀ a ∈ t.take (insPoint t logical), itemEnd p a ≤ logical)
    (hafter : ∀ b ∈ t.drop (insPoint t logical), logical + p.sectorsize ≤ b.offset) :
    WF p (t.take (insPoint t logical) ++ ⟨logical, [digest]⟩ :: t.drop (insPoint t logical)) ∧
    ∀ x, covers p (t.take (insPoint t logical) ++ ⟨logical, [digest]⟩ ::
        t.drop (insPoint t logical)) x =
      if logical ≤ x ∧ x < logical + p.sectorsize then some digest else covers p t x := by
  have hnew_end : itemEnd p (⟨logical, [digest]⟩ : CsumItem) = logical + p.sectorsize := by
    simp [itemEnd]
  constructor
  · refine wf_insert_at hwf hal (by simp) hbefore ?_
    intro b hb
    rw [hnew_end]
    exact hafter b hb
  · intro x
    rw [covers_insert_at]
    by_cases hx : logical ≤ x ∧ x < logical + p.sectorsize
    · rw [if_pos hx]
      have h1 : covers p (t.take (insPoint t logical)) x = none := by
        refine covers_eq_none p _ x ?_
        intro a ha
        exact Or.inl (by have := hbefore a ha; omega)
      have h2 : covers p (t.drop (insPoint t logical)) x = none := by
        refine covers_eq_none p _ x ?_
        intro b hb
        exact Or.inr (by have := hafter b hb; omega)
      have h3 : coversItem p x ⟨logical, [digest]⟩ = some digest := by
        rw [coversItem, if_pos (by refine ⟨hx.1, ?_⟩; rw [hnew_end]; exact hx.2)]
        have hidx : (x - logical) / p.sectorsize = 0 := Nat.div_eq_of_lt (by omega)
        simp only
        rw [hidx]
        rfl
      rw [h1, h2, h3]
      rfl
    · rw [if_neg hx]
      have h3 : coversItem p x ⟨logical, [digest]⟩ = none := by
        rw [coversItem, if_neg]
        rw [hnew_end]
        show ¬(logical ≤ x ∧ x < logical + p.sectorsize)
        omega
      rw [h3, Option.none_or, covers_take_drop]

/-- Effect of extending the item at index `j` by one digest at its end: the
tree stays well formed and exactly the sector window at `logical` (the byte
right after the item's old coverage) now reads the new digest. -/
theorem extend_append_spec {p : Params} {t : Tree} {j : Nat} {it : CsumItem}
    {digest logical : Nat}
    (hS : 0 < p.sectorsize) (hwf : WF p t) (hj : t[j]? = some it)
    (hl : logical = itemEnd p it)
    (hafter : ∀ b ∈ t.drop (j + 1), logical + p.sectorsize ≤ b.offset) :
    WF p (t.set j ⟨it.offset, it.sums ++ [digest]⟩) ∧
    ∀ x, covers p (t.set j ⟨it.offset, it.sums ++ [digest]⟩) x =
      if logical ≤ x ∧ x < logical + p.sectorsize then some digest else covers p t x := by
  have hmem := mem_of_getElem?_tree hj
  have hend' : itemEnd p (⟨it.offset, it.sums ++ [digest]⟩ : CsumItem) =
      logical + p.sectorsize := by
    simp only [itemEnd, List.length_append, List.length_cons, List.length_nil, hl]
    ring
  have hoffle : it.offset ≤ logical := by
    rw [hl]
    simp only [itemEnd]
    omega
  have hlx : itemEnd p it = it.offset + it.sums.length * p.sectorsize := rfl
  constructor
  · have ha' : p.sectorsize ∣ (⟨it.offset, it.sums ++ [digest]⟩ : CsumItem).offset := by
      show p.sectorsize ∣ it.offset
      exact hwf.aligned hmem
    have hbef : ∀ a ∈ t.take j,
        itemEnd p a ≤ (⟨it.offset, it.sums ++ [digest]⟩ : CsumItem).offset := by
      show ∀ a ∈ t.take j, itemEnd p a ≤ it.offset
      exact wf_before hwf hj
    refine wf_set hwf hj ha' (by simp) hbef ?_
    intro b hb
    rw [hend']
    exact hafter b hb
  · intro x
    rw [covers_set_decomp hj x]
    by_cases hx : logical ≤ x ∧ x < logical + p.sectorsize
    · rw [if_pos hx]
      have h1 : covers p (t.take j) x = none :=
        covers_take_eq_none hwf hj (by omega)
      have h2 : covers p (t.drop (j + 1)) x = none := by
        refine covers_eq_none p _ x ?_
        intro b hb
        exact Or.inr (by have := hafter b hb; omega)
      have h3 : coversItem p x ⟨it.offset, it.sums ++ [digest]⟩ = some digest := by
        have hcond : (⟨it.offset, it.sums ++ [digest]⟩ : CsumItem).offset ≤ x ∧
            x < itemEnd p (⟨it.offset, it.sums ++ [digest]⟩ : CsumItem) := by
          rw [hend']
          show it.offset ≤ x ∧ x < logical + p.sectorsize
          omega
        rw [coversItem, if_pos hcond]
        show (it.sums ++ [digest])[(x - it.offset) / p.sectorsize]? = some digest
        have hidx : (x - it.offset) / p.sectorsize = it.sums.length := by
          refine Nat.div_eq_of_lt_le ?_ ?_
          · rw [hlx] at hl
            omega
          · have hmul : (it.sums.length + 1) * p.sectorsize =
                it.sums.length * p.sectorsize + p.sectorsize := by ring
            rw [hlx] at hl
            omega
        rw [hidx, List.getElem?_append_right (Nat.le_refl _), Nat.sub_self]
        rfl
      rw [h1, h2, h3]
      rfl
    · rw [if_neg hx]
      have h3 : coversItem p x ⟨it.offset, it.sums ++ [digest]⟩ = coversItem p x it := by
        by_cases hc : it.offset ≤ x ∧ x < itemEnd p it
        · have hidx : (x - it.offset) / p.sectorsize < it.sums.length := by
            refine (Nat.div_lt_iff_lt_mul hS).mpr ?_
            rw [hlx] at hc
            omega
          have hc' : (⟨it.offset, it.sums ++ [digest]⟩ : CsumItem).offset ≤ x ∧
              x < itemEnd p (⟨it.offset, it.sums ++ [digest]⟩ : CsumItem) := by
            rw [hend']
            refine ⟨hc.1, ?_⟩
            rw [hlx] at hc
            rw [hlx] at hl
            omega
          rw [coversItem, coversItem, if_pos hc', if_pos hc]
          show (it.sums ++ [digest])[(x - it.offset) / p.sectorsize]? =
            it.sums[(x - it.offset) / p.sectorsize]?
          rw [List.getElem?_append_left hidx]
        · have hc' : ¬((⟨it.offset, it.sums ++ [digest]⟩ : CsumItem).offset ≤ x ∧
              x < itemEnd p (⟨it.offset, it.sums ++ [digest]⟩ : CsumItem)) := by
            rw [hend']
            show ¬(it.offset ≤ x ∧ x < logical + p.sectorsize)
            rw [hlx] at hc
            rw [hlx] at hl
            omega
          rw [coversItem, coversItem, if_neg hc', if_neg hc]
      rw [h3, ← covers_decomp hj x]

theorem take_eq_take_append {t : Tree} {j : Nat} {it : CsumItem} (hj : t[j]? = some it) :
    t.take (j + 1) = t.take j ++ [it] := by
  rw [List.take_succ, hj]
  rfl

/-- btrfs_csum_file_block on a well-formed tree: well-formedness is
preserved and exactly the one-sector window at `logical` changes to the new
digest; every other byte keeps the digest (or absence) it had. -/
theorem csum_file_block_spec {p : Params} {t : Tree} {logical : Nat} (digest : Nat)
    (hS : 0 < p.sectorsize) (hC : 0 < p.csumSize) (hM : 1 ≤ MAX_CSUM_ITEMS p)
    (hwf : WF p t) (hal : p.sectorsize ∣ logical) :
    WF p (btrfs_csum_file_block p t logical digest) ∧
    ∀ x, covers p (btrfs_csum_file_block p t logical digest) x =
      if logical ≤ x ∧ x < logical + p.sectorsize then some digest else covers p t x := by
  have hs := hwf.sortedLt hS
  unfold btrfs_csum_file_block
  cases hb : (searchSlot t logical).1 with
  | true =>
      obtain ⟨it, hit, hoff⟩ := searchSlot_fst_true hb
      simp only [hb, if_pos, searchSlot_snd]
      rw [hit]
      dsimp only
      have hmem := mem_of_getElem?_tree hit
      exact set_slot_spec hS hwf hit (hwf.pos_len hmem) (by rw [hoff]; simp)
  | false =>
      simp only [hb, Bool.false_eq_true, if_false, searchSlot_snd]
      by_cases h0 : insPoint t logical = 0
      · rw [if_pos h0]
        have hfound : foundSlot t logical = none := by
          unfold foundSlot
          rw [hb]
          simp [searchSlot_snd, h0]
        rw [insertNewCsum_eq hC hM]
        refine insert_one_spec hS hwf hal ?_ ?_
        · intro a ha
          rw [h0] at ha
          simp at ha
        · intro b hb2
          rw [h0, List.drop_zero] at hb2
          exact aligned_succ hS hal (hwf.aligned hb2) (foundSlot_none hs hfound b hb2)
      · rw [if_neg h0]
        have hfound : foundSlot t logical = some (insPoint t logical - 1) := by
          unfold foundSlot
          rw [hb]
          simp [searchSlot_snd, h0]
        obtain ⟨prev, hprev, hple⟩ := foundSlot_some hfound
        rw [hprev]
        dsimp only
        have hmem := mem_of_getElem?_tree hprev
        have hplt : prev.offset < logical := offset_lt_of_lt_insPoint (by omega) hprev
        have hdvdsub : p.sectorsize ∣ logical - prev.offset :=
          Nat.dvd_sub' hal (hwf.aligned hmem)
        have hcoS : (logical - prev.offset) / p.sectorsize * p.sectorsize =
            logical - prev.offset := Nat.div_mul_cancel hdvdsub
        have hafterIns : ∀ b ∈ t.drop (insPoint t logical),
            logical + p.sectorsize ≤ b.offset := by
          intro b hbm
          rcases List.mem_iff_getElem?.mp hbm with ⟨m, hm⟩
          rw [List.getElem?_drop] at hm
          have hgt : logical < b.offset :=
            foundSlot_after hs hfound (insPoint t logical + m) b (by omega) hm
          exact aligned_succ hS hal (hwf.aligned (mem_of_getElem?_tree hm)) hgt
        by_cases hcov : (logical - prev.offset) / p.sectorsize < prev.sums.length
        · rw [if_pos hcov]
          refine set_slot_spec hS hwf hprev hcov ?_
          rw [hcoS]
          omega
        · rw [if_neg hcov]
          push_neg at hcov
          have hbefore : ∀ a ∈ t.take (insPoint t logical), itemEnd p a ≤ logical := by
            have htake : t.take (insPoint t logical) =
                t.take (insPoint t logical - 1) ++ [prev] := by
              have h1 : insPoint t logical = (insPoint t logical - 1) + 1 := by omega
              rw [h1, Nat.add_sub_cancel]
              exact take_eq_take_append hprev
            intro a ha
            rw [htake, List.mem_append, List.mem_singleton] at ha
            rcases ha with ha | ha
            · exact Nat.le_trans (wf_before hwf hprev a ha) (Nat.le_of_lt hplt)
            · subst ha
              have hmul : a.sums.length * p.sectorsize ≤
                  (logical - a.offset) / p.sectorsize * p.sectorsize :=
                Nat.mul_le_mul_right _ hcov
              rw [hcoS] at hmul
              simp only [itemEnd]
              omega
          by_cases hmax1 : MAX_CSUM_ITEMS p ≤ prev.sums.length
          · rw [if_pos hmax1, insertNewCsum_eq hC hM]
            exact insert_one_spec hS hwf hal hbefore hafterIns
          · rw [if_neg hmax1]
            by_cases hmax2 : MAX_CSUM_ITEMS p ≤ (logical - prev.offset) / p.sectorsize
            · rw [if_pos hmax2, insertNewCsum_eq hC hM]
              exact insert_one_spec hS hwf hal hbefore hafterIns
            · rw [if_neg hmax2, if_pos hcov]
              by_cases hdiff : ((logical - prev.offset) / p.sectorsize + 1) * p.csumSize -
                  prev.sums.length * p.csumSize = p.csumSize
              · rw [if_pos hdiff]
                have hco_eq : (logical - prev.offset) / p.sectorsize = prev.sums.length := by
                  rw [← Nat.sub_mul] at hdiff
                  have h1 : ((logical - prev.offset) / p.sectorsize + 1 - prev.sums.length) *
                      p.csumSize = 1 * p.csumSize := by
                    rw [Nat.one_mul]
                    exact hdiff
                  have := Nat.eq_of_mul_eq_mul_right hC h1
                  omega
                have hbody : (prev.sums ++ [0]).set
                    ((logical - prev.offset) / p.sectorsize) digest =
                    prev.sums ++ [digest] := by
                  rw [hco_eq]
                  exact append_zero_set _ _
                rw [hbody]
                have hl' : logical = itemEnd p prev := by
                  simp only [itemEnd]
                  rw [← hco_eq, hcoS]
                  omega
                refine extend_append_spec hS hwf hprev hl' ?_
                intro b hbm
                have he : insPoint t logical - 1 + 1 = insPoint t logical := by omega
                rw [he] at hbm
                exact hafterIns b hbm
              · rw [if_neg hdiff, insertNewCsum_eq hC hM]
                exact insert_one_spec hS hwf hal hbefore hafterIns

theorem delMeasure_append (p : Params) (bytenr : Nat) (l₁ l₂ : Tree) :
    delMeasure p bytenr (l₁ ++ l₂) = delMeasure p bytenr l₁ + delMeasure p bytenr l₂ := by
  simp [delMeasure]

theorem delMeasure_cons (p : Params) (bytenr : Nat) (it : CsumItem) (l : Tree) :
    delMeasure p bytenr (it :: l) = weight p bytenr it + delMeasure p bytenr l := by
  simp [delMeasure]

theorem weight_pos (p : Params) (bytenr : Nat) (it : CsumItem) : 0 < weight p bytenr it := by
  simp only [weight]
  omega

theorem delMeasure_decomp {p : Params} {t : Tree} {j : Nat} {it : CsumItem}
    (bytenr : Nat) (hj : t[j]? = some it) :
    delMeasure p bytenr t = delMeasure p bytenr (t.take j) + weight p bytenr it +
      delMeasure p bytenr (t.drop (j + 1)) := by
  conv_lhs => rw [eq_take_cons_drop hj]
  rw [delMeasure_append, delMeasure_cons]
  omega

theorem wf_sublist {p : Params} {t t' : Tree} (hwf : WF p t) (hsub : t'.Sublist t) :
    WF p t' :=
  ⟨fun it hit => hwf.1 it (hsub.subset hit), hwf.2.sublist hsub⟩

/-- The fully-contained branch of the btrfs_del_csums loop: deleting the
item keeps the tree well formed, strictly shrinks the measure, and touches
no byte outside the freed range. -/
theorem del_erase_step {p : Params} {t : Tree} {bytenr len j : Nat} {it : CsumItem}
    (hwf : WF p t) (hit : t[j]? = some it)
    (hg1 : bytenr ≤ it.offset) (hg2 : itemEnd p it ≤ bytenr + len) :
    WF p (t.eraseIdx j) ∧
    delMeasure p bytenr (t.eraseIdx j) < delMeasure p bytenr t ∧
    ∀ x, ¬(bytenr ≤ x ∧ x < bytenr + len) →
      covers p (t.eraseIdx j) x = covers p t x := by
  have herase : t.eraseIdx j = t.take j ++ t.drop (j + 1) :=
    List.eraseIdx_eq_take_drop_succ t j
  refine ⟨?_, ?_, ?_⟩
  · exact wf_sublist hwf (List.eraseIdx_sublist t j)
  · rw [herase, delMeasure_append, delMeasure_decomp bytenr hit]
    have := weight_pos p bytenr it
    omega
  · intro x hx
    have hmid : coversItem p x it = none := by
      rcases Nat.lt_or_ge x bytenr with h | h
      · exact coversItem_eq_none_of_lt p x it (by omega)
      · exact coversItem_eq_none_of_le p x it (by omega)
    rw [herase, covers_append, covers_decomp hit x, hmid, Option.none_or]

/-- Replacing the found item by a shrunken one (either truncation case):
generic conditions under which the tree stays well formed, the measure
drops and no byte outside the freed range changes. -/
theorem del_set_step {p : Params} {t : Tree} {bytenr len j : Nat} {it it' : CsumItem}
    (hwf : WF p t) (hit : t[j]? = some it)
    (hal' : p.sectorsize ∣ it'.offset) (hne : it'.sums ≠ [])
    (hbef : it.offset ≤ it'.offset)
    (haft : itemEnd p it' ≤ itemEnd p it)
    (hw : weight p bytenr it' < weight p bytenr it)
    (hmid : ∀ x, ¬(bytenr ≤ x ∧ x < bytenr + len) →
      coversItem p x it' = coversItem p x it) :
    WF p (t.set j it') ∧
    delMeasure p bytenr (t.set j it') < delMeasure p bytenr t ∧
    ∀ x, ¬(bytenr ≤ x ∧ x < bytenr + len) →
      covers p (t.set j it') x = covers p t x := by
  obtain ⟨hjl, _⟩ := getElem_of_getElem? hit
  refine ⟨?_, ?_, ?_⟩
  · refine wf_set hwf hit hal' hne ?_ ?_
    · intro a ha
      exact Nat.le_trans (wf_before hwf hit a ha) hbef
    · intro b hbm
      exact Nat.le_trans haft (wf_after hwf hit b hbm)
  · rw [List.set_eq_take_cons_drop it' hjl, delMeasure_append, delMeasure_cons,
      delMeasure_decomp bytenr hit]
    omega
  · intro x hx
    rw [covers_set_decomp hit x, covers_decomp hit x, hmid x hx]

/-- The one-sided-overlap branch of the btrfs_del_csums loop
(truncate_one_csum): the tree stays well formed, the measure drops, and no
byte outside the freed range changes. -/
theorem del_truncate_step {p : Params} {t : Tree} {bytenr len j : Nat} {it : CsumItem}
    (hS : 0 < p.sectorsize) (hwf : WF p t) (hit : t[j]? = some it)
    (hbal : p.sectorsize ∣ bytenr) (hlal : p.sectorsize ∣ len)
    (hg3 : bytenr < itemEnd p it)
    (hg4 : it.offset < bytenr + len)
    (hga : ¬(bytenr ≤ it.offset ∧ itemEnd p it ≤ bytenr + len))
    (hgb : ¬(it.offset < bytenr ∧ bytenr + len < itemEnd p it)) :
    WF p (t.set j (truncate_one_csum p bytenr len it)) ∧
    delMeasure p bytenr (t.set j (truncate_one_csum p bytenr len it)) <
      delMeasure p bytenr t ∧
    ∀ x, ¬(bytenr ≤ x ∧ x < bytenr + len) →
      covers p (t.set j (truncate_one_csum p bytenr len it)) x = covers p t x := by
  have hmem := mem_of_getElem?_tree hit
  have hoal : p.sectorsize ∣ it.offset := hwf.aligned hmem
  have hkk : itemEnd p it = it.offset + it.sums.length * p.sectorsize := rfl
  have hg3' : bytenr < it.offset + it.sums.length * p.sectorsize := by
    rw [← hkk]
    exact hg3
  by_cases hoc : it.offset < bytenr
  · -- tail overlap: keep the first (bytenr - offset) / sectorsize digests
    have htail : itemEnd p it ≤ bytenr + len := by
      by_contra hcon
      push_neg at hcon
      exact hgb ⟨hoc, hcon⟩
    have htail' : it.offset + it.sums.length * p.sectorsize ≤ bytenr + len := by
      rw [← hkk]
      exact htail
    have htr : truncate_one_csum p bytenr len it =
        ⟨it.offset, it.sums.take ((bytenr - it.offset) / p.sectorsize)⟩ := by
      unfold truncate_one_csum
      rw [if_pos ⟨hoc, htail⟩]
    have hdS : (bytenr - it.offset) / p.sectorsize * p.sectorsize = bytenr - it.offset :=
      Nat.div_mul_cancel (Nat.dvd_sub' hbal hoal)
    have hdlt : (bytenr - it.offset) / p.sectorsize < it.sums.length := by
      refine (Nat.div_lt_iff_lt_mul hS).mpr ?_
      omega
    have hdpos : 1 ≤ (bytenr - it.offset) / p.sectorsize := by
      refine (Nat.le_div_iff_mul_le hS).mpr ?_
      have := aligned_succ hS hoal hbal hoc
      omega
    have hlen' : (it.sums.take ((bytenr - it.offset) / p.sectorsize)).length =
        (bytenr - it.offset) / p.sectorsize := by
      rw [List.length_take]
      omega
    have hend' : itemEnd p (⟨it.offset,
        it.sums.take ((bytenr - it.offset) / p.sectorsize)⟩ : CsumItem) = bytenr := by
      simp only [itemEnd, hlen']
      omega
    rw [htr]
    refine del_set_step hwf hit hoal ?_ (Nat.le_refl _) ?_ ?_ ?_
    · refine List.ne_nil_of_length_pos ?_
      rw [hlen']
      omega
    · rw [hend', hkk]
      omega
    · simp only [weight, hend', hlen']
      have hb1 : ¬(it.offset < bytenr ∧ bytenr < bytenr) := by omega
      rw [if_neg hb1]
      have hb2 : it.offset < bytenr ∧ bytenr < itemEnd p it := ⟨hoc, hg3⟩
      rw [if_pos hb2]
      omega
    · intro x hx
      by_cases hcv : it.offset ≤ x ∧ x < bytenr
      · have hidx : (x - it.offset) / p.sectorsize <
            (bytenr - it.offset) / p.sectorsize := by
          refine (Nat.div_lt_iff_lt_mul hS).mpr ?_
          rw [hdS]
          omega
        have hc1 : (⟨it.offset, it.sums.take ((bytenr - it.offset) / p.sectorsize)⟩ :
            CsumItem).offset ≤ x ∧ x < itemEnd p (⟨it.offset,
            it.sums.take ((bytenr - it.offset) / p.sectorsize)⟩ : CsumItem) := by
          rw [hend']
          exact hcv
        have hc2 : it.offset ≤ x ∧ x < itemEnd p it := by
          rw [hkk]
          omega
        rw [coversItem, coversItem, if_pos hc1, if_pos hc2]
        show (it.sums.take ((bytenr - it.offset) / p.sectorsize))[(x - it.offset) /
          p.sectorsize]? = it.sums[(x - it.offset) / p.sectorsize]?
        exact List.getElem?_take_of_lt hidx
      · have hc1 : ¬((⟨it.offset, it.sums.take ((bytenr - it.offset) / p.sectorsize)⟩ :
            CsumItem).offset ≤ x ∧ x < itemEnd p (⟨it.offset,
            it.sums.take ((bytenr - it.offset) / p.sectorsize)⟩ : CsumItem)) := by
          rw [hend']
          show ¬(it.offset ≤ x ∧ x < bytenr)
          exact hcv
        have hc2 : ¬(it.offset ≤ x ∧ x < itemEnd p it) := by
          rw [hkk]
          omega
        rw [coversItem, coversItem, if_neg hc1, if_neg hc2]
  · -- head overlap: keep the last (itemEnd - end_byte) / sectorsize digests
    push_neg at hoc
    have hhead : bytenr + len < itemEnd p it := by
      by_contra hcon
      push_neg at hcon
      exact hga ⟨hoc, hcon⟩
    have hhead' : bytenr + len < it.offset + it.sums.length * p.sectorsize := by
      rw [← hkk]
      exact hhead
    have htr : truncate_one_csum p bytenr len it =
        ⟨bytenr + len, it.sums.drop (it.sums.length -
          (itemEnd p it - (bytenr + len)) / p.sectorsize)⟩ := by
      unfold truncate_one_csum
      rw [if_neg (by omega), if_pos ⟨hoc, hhead, hg4⟩]
    have hebal : p.sectorsize ∣ bytenr + len := Nat.dvd_add hbal hlal
    have hitdvd : p.sectorsize ∣ itemEnd p it := by
      rw [hkk]
      exact Nat.dvd_add hoal (dvd_mul_left _ _)
    have hk'S : (itemEnd p it - (bytenr + len)) / p.sectorsize * p.sectorsize =
        itemEnd p it - (bytenr + len) :=
      Nat.div_mul_cancel (Nat.dvd_sub' hitdvd hebal)
    have hk'lt : (itemEnd p it - (bytenr + len)) / p.sectorsize < it.sums.length := by
      refine (Nat.div_lt_iff_lt_mul hS).mpr ?_
      rw [hkk]
      omega
    have hk'pos : 1 ≤ (itemEnd p it - (bytenr + len)) / p.sectorsize := by
      refine (Nat.le_div_iff_mul_le hS).mpr ?_
      have := aligned_succ hS hebal hitdvd hhead
      omega
    have hlen' : (it.sums.drop (it.sums.length -
        (itemEnd p it - (bytenr + len)) / p.sectorsize)).length =
        (itemEnd p it - (bytenr + len)) / p.sectorsize := by
      rw [List.length_drop]
      omega
    have hgap : (it.sums.length - (itemEnd p it - (bytenr + len)) / p.sectorsize) *
        p.sectorsize = bytenr + len - it.offset := by
      rw [Nat.sub_mul, hk'S]
      rw [hkk]
      omega
    have hend' : itemEnd p (⟨bytenr + len, it.sums.drop (it.sums.length -
        (itemEnd p it - (bytenr + len)) / p.sectorsize)⟩ : CsumItem) = itemEnd p it := by
      show bytenr + len + (it.sums.drop (it.sums.length -
        (itemEnd p it - (bytenr + len)) / p.sectorsize)).length * p.sectorsize = itemEnd p it
      rw [hlen', hk'S]
      omega
    rw [htr]
    refine del_set_step hwf hit hebal ?_
      (by show it.offset ≤ bytenr + len; omega) (by rw [hend']) ?_ ?_
    · refine List.ne_nil_of_length_pos ?_
      rw [hlen']
      omega
    · simp only [weight, hend', hlen']
      have hb1 : ¬(bytenr + len < bytenr ∧ bytenr < itemEnd p it) := by omega
      rw [if_neg hb1]
      split
      · omega
      · omega
    · intro x hx
      by_cases hcv : bytenr + len ≤ x ∧ x < itemEnd p it
      · have hc1 : (⟨bytenr + len, it.sums.drop (it.sums.length -
            (itemEnd p it - (bytenr + len)) / p.sectorsize)⟩ : CsumItem).offset ≤ x ∧
            x < itemEnd p (⟨bytenr + len, it.sums.drop (it.sums.length -
            (itemEnd p it - (bytenr + len)) / p.sectorsize)⟩ : CsumItem) := by
          rw [hend']
          exact hcv
        have hc2 : it.offset ≤ x ∧ x < itemEnd p it := ⟨by omega, hcv.2⟩
        rw [coversItem, coversItem, if_pos hc1, if_pos hc2]
        show (it.sums.drop (it.sums.length - (itemEnd p it - (bytenr + len)) /
          p.sectorsize))[(x - (bytenr + len)) / p.sectorsize]? =
          it.sums[(x - it.offset) / p.sectorsize]?
        rw [List.getElem?_drop]
        congr 1
        have hxsplit : x - it.offset = (x - (bytenr + len)) +
            (it.sums.length - (itemEnd p it - (bytenr + len)) / p.sectorsize) *
            p.sectorsize := by
          rw [hgap]
          omega
        rw [hxsplit, Nat.add_mul_div_right _ _ hS]
        omega
      · have hc1 : ¬((⟨bytenr + len, it.sums.drop (it.sums.length -
            (itemEnd p it - (bytenr + len)) / p.sectorsize)⟩ : CsumItem).offset ≤ x ∧
            x < itemEnd p (⟨bytenr + len, it.sums.drop (it.sums.length -
            (itemEnd p it - (bytenr + len)) / p.sectorsize)⟩ : CsumItem)) := by
          rw [hend']
          show ¬(bytenr + len ≤ x ∧ x < itemEnd p it)
          exact hcv
        have hc2 : ¬(it.offset ≤ x ∧ x < itemEnd p it) := by
          omega
        rw [coversItem, coversItem, if_neg hc1, if_neg hc2]

/-- The straddle branch of the btrfs_del_csums loop: zero the freed digest
slots and split the item in place at the byte offset of `bytenr`.  The tree
stays well formed, the measure drops, and no byte outside the freed range
changes. -/
theorem del_split_step {p : Params} {t : Tree} {bytenr len j : Nat} {it : CsumItem}
    (hS : 0 < p.sectorsize) (hwf : WF p t) (hit : t[j]? = some it)
    (hbal : p.sectorsize ∣ bytenr) (hlal : p.sectorsize ∣ len) (hlen : 0 < len)
    (hg1 : it.offset < bytenr) (hg2 : bytenr + len < itemEnd p it) :
    WF p (t.take j ++
        ⟨it.offset, (zeroSlots it.sums ((bytenr - it.offset) / p.sectorsize)
          (len / p.sectorsize)).take ((bytenr - it.offset) / p.sectorsize)⟩ ::
        ⟨bytenr, (zeroSlots it.sums ((bytenr - it.offset) / p.sectorsize)
          (len / p.sectorsize)).drop ((bytenr - it.offset) / p.sectorsize)⟩ ::
        t.drop (j + 1)) ∧
    delMeasure p bytenr (t.take j ++
        ⟨it.offset, (zeroSlots it.sums ((bytenr - it.offset) / p.sectorsize)
          (len / p.sectorsize)).take ((bytenr - it.offset) / p.sectorsize)⟩ ::
        ⟨bytenr, (zeroSlots it.sums ((bytenr - it.offset) / p.sectorsize)
          (len / p.sectorsize)).drop ((bytenr - it.offset) / p.sectorsize)⟩ ::
        t.drop (j + 1)) < delMeasure p bytenr t ∧
    ∀ x, ¬(bytenr ≤ x ∧ x < bytenr + len) →
      covers p (t.take j ++
        ⟨it.offset, (zeroSlots it.sums ((bytenr - it.offset) / p.sectorsize)
          (len / p.sectorsize)).take ((bytenr - it.offset) / p.sectorsize)⟩ ::
        ⟨bytenr, (zeroSlots it.sums ((bytenr - it.offset) / p.sectorsize)
          (len / p.sectorsize)).drop ((bytenr - it.offset) / p.sectorsize)⟩ ::
        t.drop (j + 1)) x = covers p t x := by
  have hmem := mem_of_getElem?_tree hit
  have hoal : p.sectorsize ∣ it.offset := hwf.aligned hmem
  have hkk : itemEnd p it = it.offset + it.sums.length * p.sectorsize := rfl
  have hg2' : bytenr + len < it.offset + it.sums.length * p.sectorsize := by
    rw [← hkk]
    exact hg2
  have hdS : (bytenr - it.offset) / p.sectorsize * p.sectorsize = bytenr - it.offset :=
    Nat.div_mul_cancel (Nat.dvd_sub' hbal hoal)
  have hnS : len / p.sectorsize * p.sectorsize = len := Nat.div_mul_cancel hlal
  have hzlen : (zeroSlots it.sums ((bytenr - it.offset) / p.sectorsize)
      (len / p.sectorsize)).length = it.sums.length := zeroSlots_length _ _ _
  have hd_lt : (bytenr - it.offset) / p.sectorsize < it.sums.length := by
    refine (Nat.div_lt_iff_lt_mul hS).mpr ?_
    omega
  have hd_pos : 1 ≤ (bytenr - it.offset) / p.sectorsize := by
    refine (Nat.le_div_iff_mul_le hS).mpr ?_
    have := aligned_succ hS hoal hbal hg1
    omega
  have hn_pos : 1 ≤ len / p.sectorsize := by
    refine (Nat.le_div_iff_mul_le hS).mpr ?_
    have := Nat.le_of_dvd hlen hlal
    omega
  have hdn_lt : (bytenr - it.offset) / p.sectorsize + len / p.sectorsize <
      it.sums.length := by
    have hmul : ((bytenr - it.offset) / p.sectorsize + len / p.sectorsize) *
        p.sectorsize = (bytenr - it.offset) + len := by
      rw [Nat.add_mul, hdS, hnS]
    refine Nat.lt_of_mul_lt_mul_right (a := p.sectorsize) ?_
    rw [hmul]
    omega
  have hLlen : ((zeroSlots it.sums ((bytenr - it.offset) / p.sectorsize)
      (len / p.sectorsize)).take ((bytenr - it.offset) / p.sectorsize)).length =
      (bytenr - it.offset) / p.sectorsize := by
    rw [List.length_take, hzlen]
    omega
  have hRlen : ((zeroSlots it.sums ((bytenr - it.offset) / p.sectorsize)
      (len / p.sectorsize)).drop ((bytenr - it.offset) / p.sectorsize)).length =
      it.sums.length - (bytenr - it.offset) / p.sectorsize := by
    rw [List.length_drop, hzlen]
  have hLend : itemEnd p (⟨it.offset, (zeroSlots it.sums
      ((bytenr - it.offset) / p.sectorsize) (len / p.sectorsize)).take
      ((bytenr - it.offset) / p.sectorsize)⟩ : CsumItem) = bytenr := by
    show it.offset + ((zeroSlots it.sums ((bytenr - it.offset) / p.sectorsize)
      (len / p.sectorsize)).take ((bytenr - it.offset) / p.sectorsize)).length *
      p.sectorsize = bytenr
    rw [hLlen, hdS]
    omega
  have hRend : itemEnd p (⟨bytenr, (zeroSlots it.sums
      ((bytenr - it.offset) / p.sectorsize) (len / p.sectorsize)).drop
      ((bytenr - it.offset) / p.sectorsize)⟩ : CsumItem) = itemEnd p it := by
    show bytenr + ((zeroSlots it.sums ((bytenr - it.offset) / p.sectorsize)
      (len / p.sectorsize)).drop ((bytenr - it.offset) / p.sectorsize)).length *
      p.sectorsize = itemEnd p it
    rw [hRlen, Nat.sub_mul, hdS, hkk]
    omega
  have hp := hwf.2
  rw [eq_take_cons_drop hit, List.pairwise_append, List.pairwise_cons] at hp
  refine ⟨⟨?_, ?_⟩, ?_, ?_⟩
  · -- membership facts
    intro a hain
    rw [List.mem_append, List.mem_cons, List.mem_cons] at hain
    rcases hain with h | h | h | h
    · exact hwf.1 a (List.mem_of_mem_take h)
    · subst h
      refine ⟨hoal, List.ne_nil_of_length_pos ?_⟩
      rw [hLlen]
      omega
    · subst h
      refine ⟨hbal, List.ne_nil_of_length_pos ?_⟩
      rw [hRlen]
      omega
    · exact hwf.1 a (List.mem_of_mem_drop h)
  · -- pairwise
    rw [List.pairwise_append, List.pairwise_cons, List.pairwise_cons]
    refine ⟨hp.1, ⟨?_, ?_, hp.2.1.2⟩, ?_⟩
    · intro b hbm
      rw [List.mem_cons] at hbm
      rcases hbm with h | h
      · subst h
        rw [hLend]
      · rw [hLend]
        exact Nat.le_trans (by rw [hkk]; omega) (hp.2.1.1 b h)
    · intro b hbm
      rw [hRend]
      exact hp.2.1.1 b hbm
    · intro a hain b hbm
      rw [List.mem_cons, List.mem_cons] at hbm
      have hba : itemEnd p a ≤ it.offset := hp.2.2 a hain it (by simp)
      rcases hbm with h | h | h
      · subst h
        exact hba
      · subst h
        show itemEnd p a ≤ bytenr
        omega
      · exact hp.2.2 a hain b (List.mem_cons_of_mem it h)
  · -- measure decrease
    rw [delMeasure_append, delMeasure_cons, delMeasure_cons,
      delMeasure_decomp bytenr hit]
    have hwL : weight p bytenr (⟨it.offset, (zeroSlots it.sums
        ((bytenr - it.offset) / p.sectorsize) (len / p.sectorsize)).take
        ((bytenr - it.offset) / p.sectorsize)⟩ : CsumItem) =
        3 * ((bytenr - it.offset) / p.sectorsize) + 1 := by
      simp only [weight, hLlen, hLend]
      rw [if_neg (by omega : ¬(it.offset < bytenr ∧ bytenr < bytenr))]
    have hwR : weight p bytenr (⟨bytenr, (zeroSlots it.sums
        ((bytenr - it.offset) / p.sectorsize) (len / p.sectorsize)).drop
        ((bytenr - it.offset) / p.sectorsize)⟩ : CsumItem) =
        3 * (it.sums.length - (bytenr - it.offset) / p.sectorsize) + 1 := by
      simp only [weight, hRlen]
      rw [if_neg]
      show ¬((⟨bytenr, (zeroSlots it.sums ((bytenr - it.offset) / p.sectorsize)
        (len / p.sectorsize)).drop ((bytenr - it.offset) / p.sectorsize)⟩ :
        CsumItem).offset < bytenr ∧ bytenr < itemEnd p (⟨bytenr, (zeroSlots it.sums
        ((bytenr - it.offset) / p.sectorsize) (len / p.sectorsize)).drop
        ((bytenr - it.offset) / p.sectorsize)⟩ : CsumItem))
      rw [hRend]
      show ¬(bytenr < bytenr ∧ bytenr < itemEnd p it)
      omega
    have hwit : weight p bytenr it = 3 * it.sums.length + 1 + 2 := by
      simp only [weight]
      rw [if_pos ⟨hg1, by omega⟩]
    rw [hwL, hwR, hwit]
    omega
  · -- covers preservation outside the freed range
    intro x hx
    rw [covers_append, covers_cons, covers_cons, covers_decomp hit x]
    have hmid2 : (coversItem p x ⟨it.offset, (zeroSlots it.sums
        ((bytenr - it.offset) / p.sectorsize) (len / p.sectorsize)).take
        ((bytenr - it.offset) / p.sectorsize)⟩).or
        (coversItem p x ⟨bytenr, (zeroSlots it.sums
        ((bytenr - it.offset) / p.sectorsize) (len / p.sectorsize)).drop
        ((bytenr - it.offset) / p.sectorsize)⟩) = coversItem p x it := by
      rcases Nat.lt_or_ge x it.offset with hx1 | hx1
      · have hL0 : coversItem p x ⟨it.offset, (zeroSlots it.sums
            ((bytenr - it.offset) / p.sectorsize) (len / p.sectorsize)).take
            ((bytenr - it.offset) / p.sectorsize)⟩ = none :=
          coversItem_eq_none_of_lt p x _ (by show x < it.offset; exact hx1)
        have hR0 : coversItem p x ⟨bytenr, (zeroSlots it.sums
            ((bytenr - it.offset) / p.sectorsize) (len / p.sectorsize)).drop
            ((bytenr - it.offset) / p.sectorsize)⟩ = none :=
          coversItem_eq_none_of_lt p x _ (by show x < bytenr; omega)
        have hI0 : coversItem p x it = none := coversItem_eq_none_of_lt p x it hx1
        rw [hL0, hR0, hI0]
        rfl
      · rcases Nat.lt_or_ge x bytenr with hx2 | hx2
        · -- covered by the left part, identically to the old item
          have hidx : (x - it.offset) / p.sectorsize <
              (bytenr - it.offset) / p.sectorsize := by
            refine (Nat.div_lt_iff_lt_mul hS).mpr ?_
            rw [hdS]
            omega
          have hcL : (⟨it.offset, (zeroSlots it.sums
              ((bytenr - it.offset) / p.sectorsize) (len / p.sectorsize)).take
              ((bytenr - it.offset) / p.sectorsize)⟩ : CsumItem).offset ≤ x ∧
              x < itemEnd p (⟨it.offset, (zeroSlots it.sums
              ((bytenr - it.offset) / p.sectorsize) (len / p.sectorsize)).take
              ((bytenr - it.offset) / p.sectorsize)⟩ : CsumItem) := by
            rw [hLend]
            exact ⟨hx1, hx2⟩
          have hcit : it.offset ≤ x ∧ x < itemEnd p it := by
            rw [hkk]
            omega
          have hLv : coversItem p x ⟨it.offset, (zeroSlots it.sums
              ((bytenr - it.offset) / p.sectorsize) (len / p.sectorsize)).take
              ((bytenr - it.offset) / p.sectorsize)⟩ =
              it.sums[(x - it.offset) / p.sectorsize]? := by
            rw [coversItem, if_pos hcL]
            show ((zeroSlots it.sums ((bytenr - it.offset) / p.sectorsize)
              (len / p.sectorsize)).take ((bytenr - it.offset) / p.sectorsize))[(x -
              it.offset) / p.sectorsize]? = it.sums[(x - it.offset) / p.sectorsize]?
            rw [List.getElem?_take_of_lt hidx, zeroSlots_getElem?_lt hidx]
          have hIv : coversItem p x it = it.sums[(x - it.offset) / p.sectorsize]? := by
            rw [coversItem, if_pos hcit]
          rw [hLv, hIv, List.getElem?_eq_getElem (by omega :
            (x - it.offset) / p.sectorsize < it.sums.length)]
          rfl
        · -- x is at or past end_byte (outside), covered by the right part
          have hx3 : bytenr + len ≤ x := by omega
          have hcLnone : coversItem p x ⟨it.offset, (zeroSlots it.sums
              ((bytenr - it.offset) / p.sectorsize) (len / p.sectorsize)).take
              ((bytenr - it.offset) / p.sectorsize)⟩ = none := by
            refine coversItem_eq_none_of_le p x _ ?_
            rw [hLend]
            omega
          rw [hcLnone, Option.none_or]
          rcases Nat.lt_or_ge x (itemEnd p it) with hx4 | hx4
          · have hcR : (⟨bytenr, (zeroSlots it.sums
                ((bytenr - it.offset) / p.sectorsize) (len / p.sectorsize)).drop
                ((bytenr - it.offset) / p.sectorsize)⟩ : CsumItem).offset ≤ x ∧
                x < itemEnd p (⟨bytenr, (zeroSlots it.sums
                ((bytenr - it.offset) / p.sectorsize) (len / p.sectorsize)).drop
                ((bytenr - it.offset) / p.sectorsize)⟩ : CsumItem) := by
              rw [hRend]
              refine ⟨?_, hx4⟩
              show bytenr ≤ x
              omega
            have hcit : it.offset ≤ x ∧ x < itemEnd p it := ⟨by omega, hx4⟩
            rw [coversItem, coversItem, if_pos hcR, if_pos hcit]
            show ((zeroSlots it.sums ((bytenr - it.offset) / p.sectorsize)
              (len / p.sectorsize)).drop ((bytenr - it.offset) / p.sectorsize))[(x -
              bytenr) / p.sectorsize]? = it.sums[(x - it.offset) / p.sectorsize]?
            rw [List.getElem?_drop]
            have hidx' : len / p.sectorsize ≤ (x - bytenr) / p.sectorsize := by
              refine (Nat.le_div_iff_mul_le hS).mpr ?_
              rw [hnS]
              omega
            rw [zeroSlots_getElem?_ge (by omega)]
            congr 1
            have hxsplit : x - it.offset = (x - bytenr) +
                (bytenr - it.offset) / p.sectorsize * p.sectorsize := by
              rw [hdS]
              omega
            rw [hxsplit, Nat.add_mul_div_right _ _ hS]
            omega
          · rw [coversItem_eq_none_of_le p x _ (by rw [hRend]; omega),
              coversItem_eq_none_of_le p x it (by omega)]
    have hmid : ∀ o : Option Nat, (coversItem p x ⟨it.offset, (zeroSlots it.sums
        ((bytenr - it.offset) / p.sectorsize) (len / p.sectorsize)).take
        ((bytenr - it.offset) / p.sectorsize)⟩).or
        ((coversItem p x ⟨bytenr, (zeroSlots it.sums
        ((bytenr - it.offset) / p.sectorsize) (len / p.sectorsize)).drop
        ((bytenr - it.offset) / p.sectorsize)⟩).or o) = (coversItem p x it).or o := by
      intro o
      rw [← Option.or_assoc, hmid2]
    rw [hmid]

theorem offset_le_itemEnd (p : Params) (it : CsumItem) : it.offset ≤ itemEnd p it :=
  Nat.le_add_right _ _

/-- The btrfs_del_csums loop with enough fuel: the tree stays well formed,
every byte in the freed range loses its digest, and every byte outside
keeps exactly what it had. -/
theorem delLoopF_spec {p : Params} {bytenr len : Nat} (hS : 0 < p.sectorsize)
    (hbal : p.sectorsize ∣ bytenr) (hlal : p.sectorsize ∣ len) (hlen : 0 < len) :
    ∀ fuel t, WF p t → delMeasure p bytenr t < fuel →
      WF p (delLoopF p bytenr len fuel t) ∧
      ∀ x, covers p (delLoopF p bytenr len fuel t) x =
        if bytenr ≤ x ∧ x < bytenr + len then none else covers p t x := by
  intro fuel
  induction fuel with
  | zero =>
      intro t _ hm
      omega
  | succ fuel ih =>
      intro t hwf hm
      have hs := hwf.sortedLt hS
      cases hfs : foundSlot t (bytenr + len - 1) with
      | none =>
          have heq : delLoopF p bytenr len (fuel + 1) t = t := by
            simp only [delLoopF, hfs]
          rw [heq]
          refine ⟨hwf, ?_⟩
          intro x
          by_cases hx : bytenr ≤ x ∧ x < bytenr + len
          · rw [if_pos hx]
            refine covers_eq_none p t x ?_
            intro it hit
            have := foundSlot_none hs hfs it hit
            exact Or.inr (by omega)
          · rw [if_neg hx]
      | some j =>
          obtain ⟨it, hit, hle⟩ := foundSlot_some hfs
          have hoff_lt : it.offset < bytenr + len := by omega
          have hnotbrk : ¬(bytenr + len ≤ it.offset) := by omega
          by_cases hend1 : itemEnd p it ≤ bytenr
          · have heq : delLoopF p bytenr len (fuel + 1) t = t := by
              simp only [delLoopF, hfs, hit]
              rw [if_neg hnotbrk, if_pos hend1]
            rw [heq]
            refine ⟨hwf, ?_⟩
            intro x
            by_cases hx : bytenr ≤ x ∧ x < bytenr + len
            · rw [if_pos hx]
              rw [covers_decomp hit x]
              have h1 : covers p (t.take j) x = none :=
                covers_take_eq_none hwf hit
                  (Nat.le_trans (Nat.le_trans (offset_le_itemEnd p it) hend1) hx.1)
              have h2 : coversItem p x it = none :=
                coversItem_eq_none_of_le p x it (Nat.le_trans hend1 hx.1)
              have h3 : covers p (t.drop (j + 1)) x = none := by
                refine covers_drop_eq_none ?_
                intro k it2 hk hk2
                have := foundSlot_after hs hfs k it2 hk hk2
                omega
              rw [h1, h2, h3]
              rfl
            · rw [if_neg hx]
          · push_neg at hend1
            by_cases hcase1 : bytenr ≤ it.offset ∧ itemEnd p it ≤ bytenr + len
            · -- delete the entire item
              have heq : delLoopF p bytenr len (fuel + 1) t =
                  delLoopF p bytenr len fuel (t.eraseIdx j) := by
                simp only [delLoopF, hfs, hit]
                rw [if_neg hnotbrk, if_neg (by omega), if_pos hcase1]
              obtain ⟨hwf', hm', hcov'⟩ := del_erase_step hwf hit hcase1.1 hcase1.2
              obtain ⟨hwf'', hcov''⟩ := ih (t.eraseIdx j) hwf' (by omega)
              rw [heq]
              refine ⟨hwf'', ?_⟩
              intro x
              rw [hcov'' x]
              by_cases hx : bytenr ≤ x ∧ x < bytenr + len
              · rw [if_pos hx, if_pos hx]
              · rw [if_neg hx, if_neg hx, hcov' x hx]
            · by_cases hcase2 : it.offset < bytenr ∧ bytenr + len < itemEnd p it
              · -- straddles both boundaries: zero and split in place
                have heq : delLoopF p bytenr len (fuel + 1) t =
                    delLoopF p bytenr len fuel (t.take j ++
                      ⟨it.offset, (zeroSlots it.sums
                        ((bytenr - it.offset) / p.sectorsize)
                        (len / p.sectorsize)).take
                        ((bytenr - it.offset) / p.sectorsize)⟩ ::
                      ⟨bytenr, (zeroSlots it.sums
                        ((bytenr - it.offset) / p.sectorsize)
                        (len / p.sectorsize)).drop
                        ((bytenr - it.offset) / p.sectorsize)⟩ ::
                      t.drop (j + 1)) := by
                  simp only [delLoopF, hfs, hit]
                  rw [if_neg hnotbrk, if_neg (by omega), if_neg hcase1, if_pos hcase2]
                obtain ⟨hwf', hm', hcov'⟩ :=
                  del_split_step hS hwf hit hbal hlal hlen hcase2.1 hcase2.2
                obtain ⟨hwf'', hcov''⟩ := ih _ hwf' (by omega)
                rw [heq]
                refine ⟨hwf'', ?_⟩
                intro x
                rw [hcov'' x]
                by_cases hx : bytenr ≤ x ∧ x < bytenr + len
                · rw [if_pos hx, if_pos hx]
                · rw [if_neg hx, if_neg hx, hcov' x hx]
              · -- one-sided overlap: truncate_one_csum
                have heq : delLoopF p bytenr len (fuel + 1) t =
                    delLoopF p bytenr len fuel
                      (t.set j (truncate_one_csum p bytenr len it)) := by
                  simp only [delLoopF, hfs, hit]
                  rw [if_neg hnotbrk, if_neg (by omega), if_neg hcase1, if_neg hcase2]
                obtain ⟨hwf', hm', hcov'⟩ :=
                  del_truncate_step hS hwf hit hbal hlal hend1 hoff_lt hcase1 hcase2
                obtain ⟨hwf'', hcov''⟩ := ih _ hwf' (by omega)
                rw [heq]
                refine ⟨hwf'', ?_⟩
                intro x
                rw [hcov'' x]
                by_cases hx : bytenr ≤ x ∧ x < bytenr + len
                · rw [if_pos hx, if_pos hx]
                · rw [if_neg hx, if_neg hx, hcov' x hx]

/-- btrfs_del_csums with a successful path allocation: the tree stays well
formed, digests inside the freed range disappear, digests outside are
untouched. -/
theorem btrfs_del_csums_spec {p : Params} {t : Tree} {bytenr len : Nat}
    (hS : 0 < p.sectorsize) (hbal : p.sectorsize ∣ bytenr)
    (hlal : p.sectorsize ∣ len) (hlen : 0 < len) (hwf : WF p t) :
    WF p (btrfs_del_csums p true bytenr len t).2 ∧
    ∀ x, covers p (btrfs_del_csums p true bytenr len t).2 x =
      if bytenr ≤ x ∧ x < bytenr + len then none else covers p t x := by
  unfold btrfs_del_csums
  rw [if_pos rfl]
  exact delLoopF_spec hS hbal hlal hlen _ t hwf (Nat.lt_succ_self _)

theorem truncate_one_csum_len_le (p : Params) (bytenr len : Nat) (it : CsumItem) :
    (truncate_one_csum p bytenr len it).sums.length ≤ it.sums.length := by
  simp only [truncate_one_csum]
  split
  · simpa using Nat.min_le_right _ _
  · split
    · simp only [List.length_drop]
      omega
    · exact Nat.le_refl _

theorem delLoopF_sizeBound {p : Params} {bytenr len : Nat} :
    ∀ fuel t, SizeBound p t → SizeBound p (delLoopF p bytenr len fuel t) := by
  intro fuel
  induction fuel with
  | zero =>
      intro t h
      exact h
  | succ fuel ih =>
      intro t h
      cases hfs : foundSlot t (bytenr + len - 1) with
      | none =>
          simp only [delLoopF, hfs]
          exact h
      | some j =>
          cases hit : t[j]? with
          | none =>
              simp only [delLoopF, hfs, hit]
              exact h
          | some it =>
              simp only [delLoopF, hfs, hit]
              split
              · exact h
              · split
                · exact h
                · split
                  · refine ih _ ?_
                    intro a ha
                    exact h a ((List.eraseIdx_sublist t j).subset ha)
                  · have hmem := mem_of_getElem?_tree hit
                    have hk := h it hmem
                    split
                    · refine ih _ ?_
                      intro a ha
                      rw [List.mem_append, List.mem_cons, List.mem_cons] at ha
                      rcases ha with h1 | h1 | h1 | h1
                      · exact h a (List.mem_of_mem_take h1)
                      · subst h1
                        refine Nat.le_trans ?_ hk
                        show ((zeroSlots it.sums ((bytenr - it.offset) / p.sectorsize)
                          (len / p.sectorsize)).take
                          ((bytenr - it.offset) / p.sectorsize)).length ≤ it.sums.length
                        rw [List.length_take, zeroSlots_length]
                        exact Nat.min_le_right _ _
                      · subst h1
                        refine Nat.le_trans ?_ hk
                        show ((zeroSlots it.sums ((bytenr - it.offset) / p.sectorsize)
                          (len / p.sectorsize)).drop
                          ((bytenr - it.offset) / p.sectorsize)).length ≤ it.sums.length
                        rw [List.length_drop, zeroSlots_length]
                        exact Nat.sub_le _ _
                      · exact h a (List.mem_of_mem_drop h1)
                    · refine ih _ ?_
                      intro a ha
                      rcases List.mem_or_eq_of_mem_set ha with h1 | h1
                      · exact h a h1
                      · subst h1
                        exact Nat.le_trans (truncate_one_csum_len_le p bytenr len it) hk

theorem csum_file_block_sizeBound {p : Params} {t : Tree} {logical digest : Nat}
    (hC : 0 < p.csumSize) (hM : 1 ≤ MAX_CSUM_ITEMS p) (hsb : SizeBound p t) :
    SizeBound p (btrfs_csum_file_block p t logical digest) := by
  have hins : ∀ fn no, SizeBound p (insertNewCsum p t logical digest fn no) := by
    intro fn no
    rw [insertNewCsum_eq hC hM]
    intro a ha
    rw [List.mem_append, List.mem_cons] at ha
    rcases ha with h | h | h
    · exact hsb a (List.mem_of_mem_take h)
    · subst h
      simpa using hM
    · exact hsb a (List.mem_of_mem_drop h)
  unfold btrfs_csum_file_block
  split
  · -- exact hit: overwrite in place
    cases hit : t[(searchSlot t logical).2]? with
    | none =>
        simp only [hit]
        exact hsb
    | some it =>
        simp only [hit]
        intro a ha
        rcases List.mem_or_eq_of_mem_set ha with h1 | h1
        · exact hsb a h1
        · subst h1
          have := hsb it (mem_of_getElem?_tree hit)
          simpa using this
  · split
    · exact hins _ _
    · cases hprev : t[(searchSlot t logical).2 - 1]? with
      | none =>
          simp only [hprev]
          exact hsb
      | some prev =>
          simp only [hprev]
          have hkprev := hsb prev (mem_of_getElem?_tree hprev)
          split
          · -- overwrite within the item
            intro a ha
            rcases List.mem_or_eq_of_mem_set ha with h1 | h1
            · exact hsb a h1
            · subst h1
              simpa using hkprev
          · split
            · exact hins _ _
            · split
              · exact hins _ _
              · split
                · split
                  · -- extend by one digest; the guard keeps the count below the cap
                    intro a ha
                    rcases List.mem_or_eq_of_mem_set ha with h1 | h1
                    · exact hsb a h1
                    · subst h1
                      show ((prev.sums ++ [0]).set ((logical - prev.offset) /
                        p.sectorsize) digest).length ≤ MAX_CSUM_ITEMS p
                      rw [List.length_set, List.length_append]
                      simp only [List.length_cons, List.length_nil]
                      omega
                  · exact hins _ _
                · exact hins _ _

theorem applyOps_wf {p : Params} (hS : 0 < p.sectorsize) (hC : 0 < p.csumSize)
    (hM : 1 ≤ MAX_CSUM_ITEMS p) :
    ∀ ops (t : Tree), WF p t → (∀ op ∈ ops, ValidOp p op) → WF p (applyOps p ops t) := by
  intro ops
  induction ops with
  | nil =>
      intro t hwf _
      exact hwf
  | cons op ops ih =>
      intro t hwf hv
      show WF p (applyOps p ops (applyOp p t op))
      refine ih _ ?_ (fun o ho => hv o (List.mem_cons_of_mem _ ho))
      cases op with
      | upsert logical digest =>
          exact (csum_file_block_spec digest hS hC hM hwf
            (hv _ (List.mem_cons_self _ _))).1
      | delRange bytenr len =>
          obtain ⟨hb, hl, hpos⟩ := hv _ (List.mem_cons_self _ _)
          exact (btrfs_del_csums_spec hS hb hl hpos hwf).1

theorem applyOps_sizeBound {p : Params} (hC : 0 < p.csumSize)
    (hM : 1 ≤ MAX_CSUM_ITEMS p) :
    ∀ ops (t : Tree), SizeBound p t → SizeBound p (applyOps p ops t) := by
  intro ops
  induction ops with
  | nil =>
      intro t hsb
      exact hsb
  | cons op ops ih =>
      intro t hsb
      show SizeBound p (applyOps p ops (applyOp p t op))
      refine ih _ ?_
      cases op with
      | upsert logical digest => exact csum_file_block_sizeBound hC hM hsb
      | delRange bytenr len =>
          have heq : (btrfs_del_csums p true bytenr len t).2 =
              delLoopF p bytenr len (delMeasure p bytenr t + 1) t := by
            unfold btrfs_del_csums
            rw [if_pos rfl]
          show SizeBound p (btrfs_del_csums p true bytenr len t).2
          rw [heq]
          exact delLoopF_sizeBound _ t hsb

theorem applyUpserts_spec {p : Params} (hS : 0 < p.sectorsize) (hC : 0 < p.csumSize)
    (hM : 1 ≤ MAX_CSUM_ITEMS p) :
    ∀ ops (t : Tree), WF p t → (∀ op ∈ ops, p.sectorsize ∣ op.1) →
      WF p (applyUpserts p ops t) ∧
      ∀ x, p.sectorsize ∣ x →
        covers p (applyUpserts p ops t) x =
          match lastDigest ops x with
          | some d => some d
          | none => covers p t x := by
  intro ops
  induction ops with
  | nil =>
      intro t hwf _
      exact ⟨hwf, fun x _ => rfl⟩
  | cons op ops ih =>
      intro t hwf hal
      have hopal : p.sectorsize ∣ op.1 := hal op (List.mem_cons_self _ _)
      obtain ⟨hwf1, hcov1⟩ := csum_file_block_spec op.2 hS hC hM hwf hopal
      obtain ⟨hwf2, hcov2⟩ := ih (btrfs_csum_file_block p t op.1 op.2) hwf1
        (fun o ho => hal o (List.mem_cons_of_mem _ ho))
      refine ⟨hwf2, ?_⟩
      intro x hx
      have happ : applyUpserts p (op :: ops) t =
          applyUpserts p ops (btrfs_csum_file_block p t op.1 op.2) := rfl
      rw [happ, hcov2 x hx]
      cases hld : lastDigest ops x with
      | some d => simp only [lastDigest, hld]
      | none =>
          simp only [lastDigest, hld]
          rw [hcov1 x]
          by_cases he : op.1 = x
          · subst he
            rw [if_pos ⟨Nat.le_refl _, by omega⟩]
            simp
          · have hnw : ¬(op.1 ≤ x ∧ x < op.1 + p.sectorsize) := by
              intro hw
              rcases Nat.eq_or_lt_of_le hw.1 with h1 | h1
              · exact he h1
              · have := aligned_succ hS hopal hx h1
                omega
            rw [if_neg hnw]
            simp [he]

theorem isNotFound_of_covers_none {p : Params} {t : Tree} {x : Nat}
    (hS : 0 < p.sectorsize) (hwf : WF p t) (h : covers p t x = none) :
    isNotFound (btrfs_lookup_csum p t x) = true := by
  have heq := lookup_eq_covers (x := x) hS hwf
  rw [h] at heq
  cases hlk : btrfs_lookup_csum p t x with
  | ok d =>
      rw [hlk] at heq
      simp [exceptToOption] at heq
  | error e => rfl

theorem lookup_ok_of_covers_some {p : Params} {t : Tree} {x d : Nat}
    (hS : 0 < p.sectorsize) (hwf : WF p t) (h : covers p t x = some d) :
    btrfs_lookup_csum p t x = .ok d := by
  have heq := lookup_eq_covers (x := x) hS hwf
  rw [h] at heq
  cases hlk : btrfs_lookup_csum p t x with
  | ok d2 =>
      rw [hlk] at heq
      simp only [exceptToOption, Option.some.injEq] at heq
      rw [heq]
  | error e =>
      rw [hlk] at heq
      simp [exceptToOption] at heq

theorem covers_some_of_lookup_ok {p : Params} {t : Tree} {x d : Nat}
    (hS : 0 < p.sectorsize) (hwf : WF p t) (h : btrfs_lookup_csum p t x = .ok d) :
    covers p t x = some d := by
  have heq := lookup_eq_covers (x := x) hS hwf
  rw [h] at heq
  exact heq.symm

theorem foundSlot_eq_some {t : Tree} {off j : Nat} {it : CsumItem} (hs : SortedLt t)
    (hit : t[j]? = some it) (hle : it.offset ≤ off)
    (hafter : ∀ k it2, j < k → t[k]? = some it2 → off < it2.offset) :
    foundSlot t off = some j := by
  cases hfs : foundSlot t off with
  | none =>
      exfalso
      have := foundSlot_none hs hfs it (mem_of_getElem?_tree hit)
      omega
  | some j2 =>
      obtain ⟨it2, hit2, hle2⟩ := foundSlot_some hfs
      rcases Nat.lt_trichotomy j j2 with h | h | h
      · exfalso
        have := hafter j2 it2 h hit2
        omega
      · rw [h]
      · exfalso
        have := foundSlot_after hs hfs j it h hit
        omega

theorem set_append_cons_cons (A : Tree) (L R R' : CsumItem) (B : Tree) :
    (A ++ L :: R :: B).set (A.length + 1) R' = A ++ L :: R' :: B := by
  induction A with
  | nil => rfl
  | cons a A ih =>
      simp only [List.cons_append, List.length_cons]
      rw [Nat.add_right_comm, List.set_cons_succ, ih]

/-- Claim C4: deleting a range strictly inside one item's coverage
(item.offset < bytenr and bytenr + len < item end), btrfs_del_csums — the
straddle branch followed by one truncate_one_csum head-overlap iteration —
leaves exactly two items in the original item's place and performs no merge
with neighbours: a left item keeping the original key offset whose digests
are exactly those of the sectors before bytenr, and a right item keyed at
bytenr + len whose digests are exactly those of the sectors at or after
bytenr + len; every other item is unchanged.  Each result item is a
contiguous run by construction, and together their digests are the original
item's digests minus those of the deleted sub-range. -/
theorem del_csums_straddle {p : Params} {A B : Tree} {J : CsumItem} {bytenr len : Nat}
    (hS : 0 < p.sectorsize)
    (hwf : WF p (A ++ J :: B))
    (hbal : p.sectorsize ∣ bytenr) (hlal : p.sectorsize ∣ len) (hlen : 0 < len)
    (hg1 : J.offset < bytenr) (hg2 : bytenr + len < itemEnd p J) :
    (btrfs_del_csums p true bytenr len (A ++ J :: B)).2 =
      A ++ ⟨J.offset, J.sums.take ((bytenr - J.offset) / p.sectorsize)⟩ ::
        ⟨bytenr + len, J.sums.drop ((bytenr - J.offset) / p.sectorsize +
          len / p.sectorsize)⟩ :: B := by
  have hit : (A ++ J :: B)[A.length]? = some J := by
    rw [List.getElem?_append_right (Nat.le_refl _), Nat.sub_self]
    exact List.getElem?_cons_zero
  have hmem := mem_of_getElem?_tree hit
  have hoal := hwf.aligned hmem
  have hs := hwf.sortedLt hS
  have htake : (A ++ J :: B).take A.length = A := List.take_left A _
  have hdrop : (A ++ J :: B).drop (A.length + 1) = B := by
    rw [List.append_cons]
    exact List.drop_left' (by simp)
  have hBoff : ∀ b ∈ B, itemEnd p J ≤ b.offset := by
    have h1 := wf_after hwf hit
    rw [hdrop] at h1
    exact h1
  have hkk : itemEnd p J = J.offset + J.sums.length * p.sectorsize := rfl
  have hg2' : bytenr + len < J.offset + J.sums.length * p.sectorsize := by
    rw [← hkk]
    exact hg2
  have hdS : (bytenr - J.offset) / p.sectorsize * p.sectorsize = bytenr - J.offset :=
    Nat.div_mul_cancel (Nat.dvd_sub' hbal hoal)
  have hnS : len / p.sectorsize * p.sectorsize = len := Nat.div_mul_cancel hlal
  have hzlen : (zeroSlots J.sums ((bytenr - J.offset) / p.sectorsize)
      (len / p.sectorsize)).length = J.sums.length := zeroSlots_length _ _ _
  have hdn_lt : (bytenr - J.offset) / p.sectorsize + len / p.sectorsize <
      J.sums.length := by
    have hmul : ((bytenr - J.offset) / p.sectorsize + len / p.sectorsize) *
        p.sectorsize = (bytenr - J.offset) + len := by
      rw [Nat.add_mul, hdS, hnS]
    refine Nat.lt_of_mul_lt_mul_right (a := p.sectorsize) ?_
    rw [hmul]
    omega
  have he0 : 0 ≤ (bytenr - J.offset) / p.sectorsize := Nat.zero_le _
  have hf0 : 0 ≤ len / p.sectorsize := Nat.zero_le _
  -- step 1: the loop finds J and splits it in place
  have hafter1 : ∀ k it2, A.length < k → (A ++ J :: B)[k]? = some it2 →
      bytenr + len - 1 < it2.offset := by
    intro k it2 hk hk2
    rw [List.getElem?_append_right (by omega)] at hk2
    obtain ⟨m, hm⟩ : ∃ m, k - A.length = m + 1 := ⟨k - A.length - 1, by omega⟩
    rw [hm, List.getElem?_cons_succ] at hk2
    have := hBoff it2 (mem_of_getElem?_tree hk2)
    omega
  have hfs1 : foundSlot (A ++ J :: B) (bytenr + len - 1) = some A.length :=
    foundSlot_eq_some hs hit (by omega) hafter1
  have hstep1 : ∀ fuel, delLoopF p bytenr len (fuel + 1) (A ++ J :: B) =
      delLoopF p bytenr len fuel (A ++
        ⟨J.offset, (zeroSlots J.sums ((bytenr - J.offset) / p.sectorsize)
          (len / p.sectorsize)).take ((bytenr - J.offset) / p.sectorsize)⟩ ::
        ⟨bytenr, (zeroSlots J.sums ((bytenr - J.offset) / p.sectorsize)
          (len / p.sectorsize)).drop ((bytenr - J.offset) / p.sectorsize)⟩ :: B) := by
    intro fuel
    simp only [delLoopF, hfs1, hit]
    rw [if_neg (by omega : ¬(bytenr + len ≤ J.offset)),
      if_neg (by omega : ¬(itemEnd p J ≤ bytenr)),
      if_neg (by omega : ¬(bytenr ≤ J.offset ∧ itemEnd p J ≤ bytenr + len)),
      if_pos ⟨hg1, hg2⟩, htake, hdrop]
  obtain ⟨hwf1, _, _⟩ := del_split_step hS hwf hit hbal hlal hlen hg1 hg2
  rw [htake, hdrop] at hwf1
  -- facts about the right half
  have hR0len : ((zeroSlots J.sums ((bytenr - J.offset) / p.sectorsize)
      (len / p.sectorsize)).drop ((bytenr - J.offset) / p.sectorsize)).length =
      J.sums.length - (bytenr - J.offset) / p.sectorsize := by
    rw [List.length_drop, hzlen]
  have hR0end : itemEnd p (⟨bytenr, (zeroSlots J.sums
      ((bytenr - J.offset) / p.sectorsize) (len / p.sectorsize)).drop
      ((bytenr - J.offset) / p.sectorsize)⟩ : CsumItem) = itemEnd p J := by
    show bytenr + ((zeroSlots J.sums ((bytenr - J.offset) / p.sectorsize)
      (len / p.sectorsize)).drop ((bytenr - J.offset) / p.sectorsize)).length *
      p.sectorsize = itemEnd p J
    rw [hR0len, Nat.sub_mul, hdS, hkk]
    omega
  have hit1 : (A ++
      ⟨J.offset, (zeroSlots J.sums ((bytenr - J.offset) / p.sectorsize)
        (len / p.sectorsize)).take ((bytenr - J.offset) / p.sectorsize)⟩ ::
      ⟨bytenr, (zeroSlots J.sums ((bytenr - J.offset) / p.sectorsize)
        (len / p.sectorsize)).drop ((bytenr - J.offset) / p.sectorsize)⟩ ::
      B)[A.length + 1]? = some ⟨bytenr, (zeroSlots J.sums
        ((bytenr - J.offset) / p.sectorsize) (len / p.sectorsize)).drop
        ((bytenr - J.offset) / p.sectorsize)⟩ := by
    rw [List.getElem?_append_right (by omega)]
    have h1 : A.length + 1 - A.length = 1 := by omega
    rw [h1, List.getElem?_cons_succ]
    exact List.getElem?_cons_zero
  have hs1 := hwf1.sortedLt hS
  have hafter2 : ∀ k it2, A.length + 1 < k → (A ++
      ⟨J.offset, (zeroSlots J.sums ((bytenr - J.offset) / p.sectorsize)
        (len / p.sectorsize)).take ((bytenr - J.offset) / p.sectorsize)⟩ ::
      ⟨bytenr, (zeroSlots J.sums ((bytenr - J.offset) / p.sectorsize)
        (len / p.sectorsize)).drop ((bytenr - J.offset) / p.sectorsize)⟩ ::
      B)[k]? = some it2 → bytenr + len - 1 < it2.offset := by
    intro k it2 hk hk2
    rw [List.getElem?_append_right (by omega)] at hk2
    obtain ⟨m, hm⟩ : ∃ m, k - A.length = m + 2 := ⟨k - A.length - 2, by omega⟩
    rw [hm, List.getElem?_cons_succ, List.getElem?_cons_succ] at hk2
    have := hBoff it2 (mem_of_getElem?_tree hk2)
    omega
  have hfs2 : foundSlot (A ++
      ⟨J.offset, (zeroSlots J.sums ((bytenr - J.offset) / p.sectorsize)
        (len / p.sectorsize)).take ((bytenr - J.offset) / p.sectorsize)⟩ ::
      ⟨bytenr, (zeroSlots J.sums ((bytenr - J.offset) / p.sectorsize)
        (len / p.sectorsize)).drop ((bytenr - J.offset) / p.sectorsize)⟩ ::
      B) (bytenr + len - 1) = some (A.length + 1) := by
    refine foundSlot_eq_some hs1 hit1 ?_ hafter2
    show bytenr ≤ bytenr + len - 1
    omega
  -- the right half then gets head-truncated to start at end_byte
  have hrem : itemEnd p J - (bytenr + len) =
      (J.sums.length - (bytenr - J.offset) / p.sectorsize - len / p.sectorsize) *
        p.sectorsize := by
    rw [Nat.sub_mul, Nat.sub_mul, hdS, hnS, hkk]
    omega
  have htrunc : truncate_one_csum p bytenr len ⟨bytenr, (zeroSlots J.sums
      ((bytenr - J.offset) / p.sectorsize) (len / p.sectorsize)).drop
      ((bytenr - J.offset) / p.sectorsize)⟩ =
      ⟨bytenr + len, J.sums.drop ((bytenr - J.offset) / p.sectorsize +
        len / p.sectorsize)⟩ := by
    unfold truncate_one_csum
    rw [if_neg, if_pos]
    · have hdropamt : ((zeroSlots J.sums ((bytenr - J.offset) / p.sectorsize)
          (len / p.sectorsize)).drop ((bytenr - J.offset) / p.sectorsize)).length -
          (itemEnd p (⟨bytenr, (zeroSlots J.sums ((bytenr - J.offset) / p.sectorsize)
            (len / p.sectorsize)).drop ((bytenr - J.offset) / p.sectorsize)⟩ :
            CsumItem) - (bytenr + len)) / p.sectorsize = len / p.sectorsize := by
        rw [hR0end, hrem, Nat.mul_div_cancel (J.sums.length -
          (bytenr - J.offset) / p.sectorsize - len / p.sectorsize) hS, hR0len]
        omega
      rw [hdropamt]
      have hdd : ((zeroSlots J.sums ((bytenr - J.offset) / p.sectorsize)
          (len / p.sectorsize)).drop ((bytenr - J.offset) / p.sectorsize)).drop
          (len / p.sectorsize) = J.sums.drop ((bytenr - J.offset) / p.sectorsize +
          len / p.sectorsize) := by
        rw [List.drop_drop]
        exact zeroSlots_drop
      rw [hdd]
    · refine ⟨Nat.le_refl _, ?_, ?_⟩
      · rw [hR0end]
        exact hg2
      · show bytenr < bytenr + len
        omega
    · rw [hR0end]
      show ¬(bytenr < bytenr ∧ itemEnd p J ≤ bytenr + len)
      omega
  have hstep2 : ∀ fuel, delLoopF p bytenr len (fuel + 1) (A ++
      ⟨J.offset, (zeroSlots J.sums ((bytenr - J.offset) / p.sectorsize)
        (len / p.sectorsize)).take ((bytenr - J.offset) / p.sectorsize)⟩ ::
      ⟨bytenr, (zeroSlots J.sums ((bytenr - J.offset) / p.sectorsize)
        (len / p.sectorsize)).drop ((bytenr - J.offset) / p.sectorsize)⟩ :: B) =
      delLoopF p bytenr len fuel (A ++
        ⟨J.offset, (zeroSlots J.sums ((bytenr - J.offset) / p.sectorsize)
          (len / p.sectorsize)).take ((bytenr - J.offset) / p.sectorsize)⟩ ::
        ⟨bytenr + len, J.sums.drop ((bytenr - J.offset) / p.sectorsize +
          len / p.sectorsize)⟩ :: B) := by
    intro fuel
    simp only [delLoopF, hfs2, hit1]
    rw [if_neg (by
        show ¬(bytenr + len ≤ bytenr)
        omega),
      if_neg (by
        rw [hR0end]
        omega),
      if_neg (by
        intro hcc
        have h2 := hcc.2
        rw [hR0end] at h2
        omega),
      if_neg (by
        intro hcc
        have h1 := hcc.1
        revert h1
        show ¬(bytenr < bytenr)
        omega)]
    rw [htrunc, set_append_cons_cons]
  -- well-formedness of the state after the head truncation
  obtain ⟨hwf2', hm2', _⟩ := del_truncate_step (t := A ++
      ⟨J.offset, (zeroSlots J.sums ((bytenr - J.offset) / p.sectorsize)
        (len / p.sectorsize)).take ((bytenr - J.offset) / p.sectorsize)⟩ ::
      ⟨bytenr, (zeroSlots J.sums ((bytenr - J.offset) / p.sectorsize)
        (len / p.sectorsize)).drop ((bytenr - J.offset) / p.sectorsize)⟩ :: B)
      (j := A.length + 1) hS hwf1 hit1 hbal hlal
      (by rw [hR0end]; omega)
      (by show bytenr < bytenr + len; omega)
      (by
        intro hcc
        have h2 := hcc.2
        rw [hR0end] at h2
        omega)
      (by
        intro hcc
        have h1 := hcc.1
        revert h1
        show ¬(bytenr < bytenr)
        omega)
  rw [htrunc, set_append_cons_cons] at hwf2'
  -- step 3: the loop finds the left half, which ends at bytenr, and stops
  have hit2 : (A ++
      ⟨J.offset, (zeroSlots J.sums ((bytenr - J.offset) / p.sectorsize)
        (len / p.sectorsize)).take ((bytenr - J.offset) / p.sectorsize)⟩ ::
      ⟨bytenr + len, J.sums.drop ((bytenr - J.offset) / p.sectorsize +
        len / p.sectorsize)⟩ :: B)[A.length]? =
      some ⟨J.offset, (zeroSlots J.sums ((bytenr - J.offset) / p.sectorsize)
        (len / p.sectorsize)).take ((bytenr - J.offset) / p.sectorsize)⟩ := by
    rw [List.getElem?_append_right (Nat.le_refl _), Nat.sub_self]
    exact List.getElem?_cons_zero
  have hs2 := hwf2'.sortedLt hS
  have hafter3 : ∀ k it2, A.length < k → (A ++
      ⟨J.offset, (zeroSlots J.sums ((bytenr - J.offset) / p.sectorsize)
        (len / p.sectorsize)).take ((bytenr - J.offset) / p.sectorsize)⟩ ::
      ⟨bytenr + len, J.sums.drop ((bytenr - J.offset) / p.sectorsize +
        len / p.sectorsize)⟩ :: B)[k]? = some it2 →
      bytenr + len - 1 < it2.offset := by
    intro k it2 hk hk2
    rw [List.getElem?_append_right (by omega)] at hk2
    obtain ⟨m, hm⟩ : ∃ m, k - A.length = m + 1 := ⟨k - A.length - 1, by omega⟩
    rw [hm, List.getElem?_cons_succ] at hk2
    cases m with
    | zero =>
        rw [List.getElem?_cons_zero] at hk2
        have h1 : it2 = (⟨bytenr + len, J.sums.drop ((bytenr - J.offset) /
            p.sectorsize + len / p.sectorsize)⟩ : CsumItem) := by
          simpa using hk2.symm
        subst h1
        show bytenr + len - 1 < bytenr + len
        omega
    | succ m =>
        rw [List.getElem?_cons_succ] at hk2
        have := hBoff it2 (mem_of_getElem?_tree hk2)
        omega
  have hfs3 : foundSlot (A ++
      ⟨J.offset, (zeroSlots J.sums ((bytenr - J.offset) / p.sectorsize)
        (len / p.sectorsize)).take ((bytenr - J.offset) / p.sectorsize)⟩ ::
      ⟨bytenr + len, J.sums.drop ((bytenr - J.offset) / p.sectorsize +
        len / p.sectorsize)⟩ :: B) (bytenr + len - 1) = some A.length := by
    refine foundSlot_eq_some hs2 hit2 ?_ hafter3
    show J.offset ≤ bytenr + len - 1
    omega
  have hLend : itemEnd p (⟨J.offset, (zeroSlots J.sums
      ((bytenr - J.offset) / p.sectorsize) (len / p.sectorsize)).take
      ((bytenr - J.offset) / p.sectorsize)⟩ : CsumItem) = bytenr := by
    show J.offset + ((zeroSlots J.sums ((bytenr - J.offset) / p.sectorsize)
      (len / p.sectorsize)).take ((bytenr - J.offset) / p.sectorsize)).length *
      p.sectorsize = bytenr
    rw [List.length_take, hzlen, Nat.min_eq_left (show (bytenr - J.offset) /
      p.sectorsize ≤ J.sums.length by omega), hdS]
    omega
  have hstep3 : ∀ fuel, delLoopF p bytenr len (fuel + 1) (A ++
      ⟨J.offset, (zeroSlots J.sums ((bytenr - J.offset) / p.sectorsize)
        (len / p.sectorsize)).take ((bytenr - J.offset) / p.sectorsize)⟩ ::
      ⟨bytenr + len, J.sums.drop ((bytenr - J.offset) / p.sectorsize +
        len / p.sectorsize)⟩ :: B) = (A ++
      ⟨J.offset, (zeroSlots J.sums ((bytenr - J.offset) / p.sectorsize)
        (len / p.sectorsize)).take ((bytenr - J.offset) / p.sectorsize)⟩ ::
      ⟨bytenr + len, J.sums.drop ((bytenr - J.offset) / p.sectorsize +
        len / p.sectorsize)⟩ :: B) := by
    intro fuel
    simp only [delLoopF, hfs3, hit2]
    rw [if_neg (by
        show ¬(bytenr + len ≤ J.offset)
        omega),
      if_pos (by
        rw [hLend])]
  -- measure bookkeeping: three rounds of fuel are available
  have hwJ : weight p bytenr J = 3 * J.sums.length + 3 := by
    simp only [weight]
    rw [if_pos ⟨hg1, by omega⟩]
  have hM3 : 3 ≤ delMeasure p bytenr (A ++ J :: B) := by
    rw [delMeasure_decomp bytenr hit, hwJ]
    omega
  unfold btrfs_del_csums
  rw [if_pos rfl]
  obtain ⟨f1, hf1, hf1pos⟩ : ∃ f1, delMeasure p bytenr (A ++ J :: B) = f1 + 1 ∧
      1 ≤ f1 := ⟨delMeasure p bytenr (A ++ J :: B) - 1, by omega, by omega⟩
  obtain ⟨f2, hf2⟩ : ∃ f2, f1 = f2 + 1 := ⟨f1 - 1, by omega⟩
  rw [hf1, hstep1 (f1 + 1), hf2, hstep2 (f2 + 1), hstep3 f2, zeroSlots_take]

theorem lastDigest_mem : ∀ {ops : List (Nat × Nat)} {x d : Nat},
    lastDigest ops x = some d → ∃ op ∈ ops, op.1 = x := by
  intro ops
  induction ops with
  | nil =>
      intro x d h
      exact Option.noConfusion h
  | cons op ops ih =>
      intro x d h
      simp only [lastDigest] at h
      cases hrec : lastDigest ops x with
      | some d2 =>
          obtain ⟨o, ho, hx⟩ := ih hrec
          exact ⟨o, List.mem_cons_of_mem _ ho, hx⟩
      | none =>
          simp only [hrec] at h
          by_cases hx : op.1 = x
          · exact ⟨op, List.mem_cons_self _ _, hx⟩
          · rw [if_neg hx] at h
            exact Option.noConfusion h

/-- Claim C1: round-trip of write then read.  After any sequence of
btrfs_csum_file_block calls at sector-aligned offsets over a well-formed
tree, btrfs_lookup_csum at any written sector returns Ok with exactly the
digest last written for that sector. -/
theorem C1_write_read_roundtrip {p : Params} (hS : 0 < p.sectorsize)
    (hC : 0 < p.csumSize) (hM : 1 ≤ MAX_CSUM_ITEMS p)
    (ops : List (Nat × Nat)) (t : Tree) (hwf : WF p t)
    (hal : ∀ op ∈ ops, p.sectorsize ∣ op.1)
    {x d : Nat} (hlast : lastDigest ops x = some d) :
    btrfs_lookup_csum p (applyUpserts p ops t) x = .ok d := by
  obtain ⟨o, ho, hox⟩ := lastDigest_mem hlast
  have hxal : p.sectorsize ∣ x := hox ▸ hal o ho
  obtain ⟨hwf2, hcov⟩ := applyUpserts_spec hS hC hM ops t hwf hal
  have h1 := hcov x hxal
  simp only [hlast] at h1
  exact lookup_ok_of_covers_some hS hwf2 h1

/-- Witness for C1: two writes to the same sector, the later one wins. -/
theorem C1_write_read_roundtrip_witness :
    btrfs_lookup_csum ⟨4096, 4, 69, 25⟩
      (applyUpserts ⟨4096, 4, 69, 25⟩ [(4096, 7), (4096, 9)] []) 4096 = .ok 9 :=
  C1_write_read_roundtrip (by decide) (by decide) (by decide)
    [(4096, 7), (4096, 9)] [] (by decide) (by decide) (by decide)

/-- Claim C2: delete completeness and preservation.  After btrfs_del_csums
of a sector-aligned nonempty range over a well-formed tree, lookup of every
sector fully inside the range reports not-found, and every byte outside the
range whose lookup returned a digest before still returns that digest. -/
theorem C2_del_csums_lookup {p : Params} {t : Tree} {bytenr len : Nat}
    (hS : 0 < p.sectorsize) (hbal : p.sectorsize ∣ bytenr)
    (hlal : p.sectorsize ∣ len) (hlen : 0 < len) (hwf : WF p t) :
    (∀ x, bytenr ≤ x → x + p.sectorsize ≤ bytenr + len →
      isNotFound (btrfs_lookup_csum p (btrfs_del_csums p true bytenr len t).2 x) = true) ∧
    (∀ x d, ¬(bytenr ≤ x ∧ x < bytenr + len) →
      btrfs_lookup_csum p t x = .ok d →
      btrfs_lookup_csum p (btrfs_del_csums p true bytenr len t).2 x = .ok d) := by
  obtain ⟨hwf2, hcov⟩ := btrfs_del_csums_spec hS hbal hlal hlen hwf
  constructor
  · intro x hx1 hx2
    refine isNotFound_of_covers_none hS hwf2 ?_
    rw [hcov x, if_pos ⟨hx1, by omega⟩]
  · intro x d hx hold
    refine lookup_ok_of_covers_some hS hwf2 ?_
    rw [hcov x, if_neg hx]
    exact covers_some_of_lookup_ok hS hwf hold

/-- Witness for C2: deleting the first of two sectors loses exactly it. -/
theorem C2_del_csums_lookup_witness :
    isNotFound (btrfs_lookup_csum ⟨4096, 4, 69, 25⟩
      (btrfs_del_csums ⟨4096, 4, 69, 25⟩ true 0 4096 [⟨0, [5]⟩, ⟨4096, [7]⟩]).2 0) = true ∧
    btrfs_lookup_csum ⟨4096, 4, 69, 25⟩
      (btrfs_del_csums ⟨4096, 4, 69, 25⟩ true 0 4096 [⟨0, [5]⟩, ⟨4096, [7]⟩]).2 4096 =
      .ok 7 :=
  ⟨(C2_del_csums_lookup (by decide) (by decide) (by decide) (by decide) (by decide)).1
      0 (by decide) (by decide),
   (C2_del_csums_lookup (by decide) (by decide) (by decide) (by decide) (by decide)).2
      4096 7 (by decide) rfl⟩

/-- Claim C3: no-overlap invariant.  Every state reached from a well-formed
tree by any sequence of btrfs_csum_file_block and btrfs_del_csums operations
with sector-aligned arguments has no two checksum items describing
overlapping sector ranges. -/
theorem C3_no_overlap_reachable {p : Params} (hS : 0 < p.sectorsize)
    (hC : 0 < p.csumSize) (hM : 1 ≤ MAX_CSUM_ITEMS p)
    (ops : List Op) (t : Tree) (hwf : WF p t) (hv : ∀ op ∈ ops, ValidOp p op) :
    NoOverlap p (applyOps p ops t) := by
  have h := (applyOps_wf hS hC hM ops t hwf hv).2
  exact h.imp fun hab => Or.inl hab

/-- Witness for C3 on a concrete sequence of writes and one delete. -/
theorem C3_no_overlap_reachable_witness :
    NoOverlap ⟨4096, 4, 69, 25⟩ (applyOps ⟨4096, 4, 69, 25⟩
      [.upsert 0 5, .upsert 4096 7, .delRange 0 4096] []) :=
  C3_no_overlap_reachable (by decide) (by decide) (by decide)
    [.upsert 0 5, .upsert 4096 7, .delRange 0 4096] [] (by decide) (by decide)

/-- Witness for C4: deleting the middle sector of a three-sector item leaves
the first and third digests in two items, keyed at the original offset and
at the end of the deleted range. -/
theorem del_csums_straddle_witness :
    (btrfs_del_csums ⟨4096, 4, 69, 25⟩ true 4096 4096
      ([] ++ ⟨0, [10, 11, 12]⟩ :: [])).2 =
      [] ++ ⟨0, List.take ((4096 - 0) / 4096) [10, 11, 12]⟩ ::
        ⟨4096 + 4096, List.drop ((4096 - 0) / 4096 + 4096 / 4096) [10, 11, 12]⟩ :: [] :=
  del_csums_straddle (by decide) (by decide) (by decide) (by decide) (by decide)
    (by decide) (by decide)

/-- Claim C5: maximum item bound.  Starting from a tree in which no item
holds more than MAX_CSUM_ITEMS digests, every state reached by any sequence
of btrfs_csum_file_block and btrfs_del_csums operations still has no item
over that bound: the upsert extends an item only below the bound and never
pre-sizes a new item above it, and deletion only shrinks or splits items. -/
theorem C5_size_bound_reachable {p : Params} (hC : 0 < p.csumSize)
    (hM : 1 ≤ MAX_CSUM_ITEMS p) (ops : List Op) (t : Tree)
    (hsb : SizeBound p t) : SizeBound p (applyOps p ops t) :=
  applyOps_sizeBound hC hM ops t hsb

/-- Witness for C5: four sequential writes cross the MAX_CSUM_ITEMS = 3
boundary of this geometry and stay within the bound. -/
theorem C5_size_bound_reachable_witness :
    SizeBound ⟨4096, 4, 69, 25⟩ (applyOps ⟨4096, 4, 69, 25⟩
      [.upsert 0 1, .upsert 4096 2, .upsert 8192 3, .upsert 12288 4] []) :=
  C5_size_bound_reachable (by decide) (by decide)
    [.upsert 0 1, .upsert 4096 2, .upsert 8192 3, .upsert 12288 4] [] (by decide)

/-- Claim C6: lookup not-found on a short item.  When the at-or-before
search is not an exact hit and lands on a preceding item whose digest count
is at or below the computed sector index (bytenr - item.offset) /
sectorsize, btrfs_lookup_csum fails with -EFBIG, one of the two not-found
outcomes. -/
theorem C6_lookup_short_item {p : Params} {t : Tree} {bytenr : Nat} {J : CsumItem}
    (hb : (searchSlot t bytenr).1 = false) (hnz : (searchSlot t bytenr).2 ≠ 0)
    (hJ : t[(searchSlot t bytenr).2 - 1]? = some J)
    (hge : J.sums.length ≤ (bytenr - J.offset) / p.sectorsize) :
    btrfs_lookup_csum p t bytenr = .error .efbig ∧
    isNotFound (btrfs_lookup_csum p t bytenr) = true := by
  have h1 : btrfs_lookup_csum p t bytenr = .error .efbig := by
    unfold btrfs_lookup_csum
    simp only [hb, Bool.false_eq_true, if_false]
    rw [if_neg hnz, hJ]
    dsimp only
    rw [if_pos hge]
  exact ⟨h1, by rw [h1]; rfl⟩

/-- Witness for C6: a one-sector item at offset 0 searched at the next
sector. -/
theorem C6_lookup_short_item_witness :
    btrfs_lookup_csum ⟨4096, 4, 69, 25⟩ [⟨0, [5]⟩] 4096 = .error .efbig ∧
    isNotFound (btrfs_lookup_csum ⟨4096, 4, 69, 25⟩ [⟨0, [5]⟩] 4096) = true :=
  C6_lookup_short_item (J := ⟨0, [5]⟩) (by decide) (by decide) (by decide) (by decide)

/-- Claim C7, counterexample: with sectorsize 4096, csum size 4 and
MAX_CSUM_ITEMS = 3, inserting a new item at logical 0 with the next key
known at 12288 sizes the item at csum_size * 1 = 4 bytes — one sector — not
the claimed csum_size * min(MAX_CSUM_ITEMS, sectors until the next key) =
4 * min(3, 3) = 12: the code takes min(logical + sectorsize, next_offset)
before subtracting logical, so the optimistic pre-size is capped at a
single sector regardless of the gap to the next item. -/
theorem C7_presize_counterexample :
    insertSize ⟨4096, 4, 69, 25⟩ 0 true (some 12288) = 4 ∧
    insertSizeSpec ⟨4096, 4, 69, 25⟩ 0 true (some 12288) = 12 ∧
    insertSize ⟨4096, 4, 69, 25⟩ 0 true (some 12288) ≠
      insertSizeSpec ⟨4096, 4, 69, 25⟩ 0 true (some 12288) := by decide

/-- Claim C7, amended: whenever btrfs_csum_file_block inserts a brand-new
checksum item, the item is sized for exactly one sector (csum_size bytes)
whether or not a following item's key offset is known, and the inserted
item holds exactly the one digest being written. -/
theorem C7_presize_one_sector {p : Params} (hC : 0 < p.csumSize)
    (hM : 1 ≤ MAX_CSUM_ITEMS p) (logical digest : Nat) (t : Tree)
    (foundNext : Bool) (nextOffset : Option Nat) :
    insertSize p logical foundNext nextOffset = p.csumSize ∧
    insertNewCsum p t logical digest foundNext nextOffset =
      t.take (insPoint t logical) ++ ⟨logical, [digest]⟩ :: t.drop (insPoint t logical) :=
  ⟨insertSize_eq hC hM logical foundNext nextOffset,
   insertNewCsum_eq hC hM t logical digest foundNext nextOffset⟩

/-- Witness for the amended C7 at the counterexample's geometry. -/
theorem C7_presize_one_sector_witness :
    insertSize ⟨4096, 4, 69, 25⟩ 0 true (some 12288) = 4 ∧
    insertNewCsum ⟨4096, 4, 69, 25⟩ [⟨12288, [9]⟩] 0 77 true (some 12288) =
      [⟨0, [77]⟩, ⟨12288, [9]⟩] := by
  have h := C7_presize_one_sector (p := ⟨4096, 4, 69, 25⟩) (by decide) (by decide)
    0 77 [⟨12288, [9]⟩] true (some 12288)
  exact ⟨h.1, by rw [h.2]; rfl⟩

/-- Claim C8: extend-in-place.  When the search is not an exact hit, the
preceding item's digest count is below MAX_CSUM_ITEMS, the target sector is
at or past that item's current end, and the size delta to reach slot
sector_index + 1 is exactly one csum_size (so the sector is the next
sequential slot), btrfs_csum_file_block extends that item in place by one
digest and writes the new digest at its end instead of inserting a new
item. -/
theorem C8_extend_in_place {p : Params} {t : Tree} {logical digest : Nat} {q : CsumItem}
    (hC : 0 < p.csumSize)
    (hb : (searchSlot t logical).1 = false)
    (hnz : (searchSlot t logical).2 ≠ 0)
    (hq : t[(searchSlot t logical).2 - 1]? = some q)
    (hlt : q.sums.length < MAX_CSUM_ITEMS p)
    (hge : q.sums.length ≤ (logical - q.offset) / p.sectorsize)
    (hdiff : ((logical - q.offset) / p.sectorsize + 1) * p.csumSize -
      q.sums.length * p.csumSize = p.csumSize) :
    btrfs_csum_file_block p t logical digest =
      t.set ((searchSlot t logical).2 - 1) ⟨q.offset, q.sums ++ [digest]⟩ := by
  have hco : (logical - q.offset) / p.sectorsize = q.sums.length := by
    have h1 : ((logical - q.offset) / p.sectorsize + 1) * p.csumSize -
        q.sums.length * p.csumSize =
        ((logical - q.offset) / p.sectorsize + 1 - q.sums.length) * p.csumSize := by
      rw [Nat.sub_mul]
    rw [h1] at hdiff
    have h2 : ((logical - q.offset) / p.sectorsize + 1 - q.sums.length) * p.csumSize =
        1 * p.csumSize := by
      rw [Nat.one_mul]
      exact hdiff
    have h3 := Nat.eq_of_mul_eq_mul_right hC h2
    omega
  unfold btrfs_csum_file_block
  simp only [hb, Bool.false_eq_true, if_false]
  rw [if_neg hnz, hq]
  dsimp only
  rw [hco]
  rw [if_neg (Nat.lt_irrefl _), if_neg (by omega : ¬(MAX_CSUM_ITEMS p ≤ q.sums.length)),
    if_neg (by omega : ¬(MAX_CSUM_ITEMS p ≤ q.sums.length)), if_pos (Nat.le_refl _),
    if_pos (by rw [Nat.succ_mul]; omega :
      (q.sums.length + 1) * p.csumSize - q.sums.length * p.csumSize = p.csumSize)]
  rw [append_zero_set]

/-- Witness for C8: appending the digest of the next sequential sector to a
one-digest item. -/
theorem C8_extend_in_place_witness :
    btrfs_csum_file_block ⟨4096, 4, 69, 25⟩ [⟨0, [5]⟩] 4096 9 = [⟨0, [5, 9]⟩] :=
  C8_extend_in_place (q := ⟨0, [5]⟩) (by decide) (by decide) (by decide) (by decide)
    (by decide) (by decide) (by decide)

/-- Claim C9: partial-overlap truncation.  In the tail-overlap case
(item.offset < bytenr, item end ≤ bytenr + len, and the overlap is real:
bytenr < item end), truncate_one_csum keeps the key and truncates the body
from the back to exactly (bytenr - item.offset) / sectorsize digests; in
the head-overlap case (bytenr ≤ item.offset, bytenr + len < item end,
item.offset < bytenr + len) it truncates the body from the front to exactly
(item end - (bytenr + len)) / sectorsize digests and rewrites the key
offset to bytenr + len. -/
theorem C9_truncate_one_csum_cases {p : Params} (bytenr len : Nat) {J : CsumItem}
    (hS : 0 < p.sectorsize) :
    (J.offset < bytenr ∧ itemEnd p J ≤ bytenr + len ∧ bytenr < itemEnd p J →
      (truncate_one_csum p bytenr len J).offset = J.offset ∧
      (truncate_one_csum p bytenr len J).sums =
        J.sums.take ((bytenr - J.offset) / p.sectorsize) ∧
      (truncate_one_csum p bytenr len J).sums.length =
        (bytenr - J.offset) / p.sectorsize) ∧
    (bytenr ≤ J.offset ∧ bytenr + len < itemEnd p J ∧ J.offset < bytenr + len →
      (truncate_one_csum p bytenr len J).offset = bytenr + len ∧
      (truncate_one_csum p bytenr len J).sums =
        J.sums.drop (J.sums.length - (itemEnd p J - (bytenr + len)) / p.sectorsize) ∧
      (truncate_one_csum p bytenr len J).sums.length =
        (itemEnd p J - (bytenr + len)) / p.sectorsize) := by
  have hkk : itemEnd p J = J.offset + J.sums.length * p.sectorsize := rfl
  constructor
  · rintro ⟨h1, h2, h3⟩
    have hd : (bytenr - J.offset) / p.sectorsize < J.sums.length := by
      rw [Nat.div_lt_iff_lt_mul hS]
      omega
    have htr : truncate_one_csum p bytenr len J =
        ⟨J.offset, J.sums.take ((bytenr - J.offset) / p.sectorsize)⟩ := by
      unfold truncate_one_csum
      rw [if_pos ⟨h1, h2⟩]
    rw [htr]
    refine ⟨rfl, rfl, ?_⟩
    show (J.sums.take ((bytenr - J.offset) / p.sectorsize)).length =
      (bytenr - J.offset) / p.sectorsize
    rw [List.length_take]
    omega
  · rintro ⟨h1, h2, h3⟩
    have hq : (itemEnd p J - (bytenr + len)) / p.sectorsize < J.sums.length := by
      rw [Nat.div_lt_iff_lt_mul hS]
      omega
    have htr : truncate_one_csum p bytenr len J =
        ⟨bytenr + len,
          J.sums.drop (J.sums.length - (itemEnd p J - (bytenr + len)) / p.sectorsize)⟩ := by
      unfold truncate_one_csum
      rw [if_neg (by omega : ¬(J.offset < bytenr ∧ itemEnd p J ≤ bytenr + len)),
        if_pos ⟨h1, h2, h3⟩]
    rw [htr]
    refine ⟨rfl, rfl, ?_⟩
    show (J.sums.drop (J.sums.length -
      (itemEnd p J - (bytenr + len)) / p.sectorsize)).length =
      (itemEnd p J - (bytenr + len)) / p.sectorsize
    have hq0 : 0 ≤ (itemEnd p J - (bytenr + len)) / p.sectorsize := Nat.zero_le _
    rw [List.length_drop]
    omega

/-- Witness for C9: a tail truncation keeping the first digest and a head
truncation keeping the last. -/
theorem C9_truncate_one_csum_cases_witness :
    ((truncate_one_csum ⟨4096, 4, 69, 25⟩ 4096 4096 ⟨0, [1, 2]⟩).sums = [1] ∧
      (truncate_one_csum ⟨4096, 4, 69, 25⟩ 4096 4096 ⟨0, [1, 2]⟩).sums.length = 1) ∧
    ((truncate_one_csum ⟨4096, 4, 69, 25⟩ 0 8192 ⟨4096, [1, 2]⟩).offset = 8192 ∧
      (truncate_one_csum ⟨4096, 4, 69, 25⟩ 0 8192 ⟨4096, [1, 2]⟩).sums = [2]) := by
  have h1 := (C9_truncate_one_csum_cases (p := ⟨4096, 4, 69, 25⟩) (J := ⟨0, [1, 2]⟩)
    4096 4096 (by decide)).1 (by decide)
  have h2 := (C9_truncate_one_csum_cases (p := ⟨4096, 4, 69, 25⟩) (J := ⟨4096, [1, 2]⟩)
    0 8192 (by decide)).2 (by decide)
  exact ⟨⟨h1.2.1, h1.2.2⟩, ⟨h2.1, h2.2.1⟩⟩

/-- Claim C10: btrfs_del_csums returns 0 whenever its path allocation
succeeds, for every range and every tree state; the only error result a
caller can observe is -ENOMEM from the allocation, never an error from the
search, delete, split or truncate steps. -/
theorem C10_del_csums_ret (p : Params) (allocOk : Bool) (bytenr len : Nat) (t : Tree) :
    (btrfs_del_csums p allocOk bytenr len t).1 = if allocOk then 0 else -ENOMEM := by
  cases allocOk <;> rfl

end BtrfsCsum
